import Mathlib

/-!
# Verification of the openzim/libretexts scraper against its specification

Shallow embedding of the scraper's core logic, translated from the Python
sources under `src/scraper/src/`:

* `mindtouch2zim/asset.py` — `AssetProcessor.process_asset`,
  `_get_header_data_for`, `_get_image_content`;
* `mindtouch2zim/processor.py` — `ContentFilter.filter`, `Processor.run`,
  `Processor._process_css`, `HtmlUrlsRewriter.add_item_to_download`,
  `CssUrlsRewriter.__call__`, `rewrite_href_src_attributes`,
  `refuse_unsupported_tags`;
* `mindtouch2zim/ui.py` — the pydantic JSON models;
* `libretexts2zim/client.py` — `LibraryPage.self_and_parents`,
  `LibraryTree.sub_tree`, `LibreTextsClient.get_page_tree`.
-/

namespace LibretextsSpec

/-! ## Asset processing (`mindtouch2zim/asset.py`, `AssetProcessor.process_asset`)

`process_asset` iterates over `asset_details.asset_urls` (a Python `set`,
whose iteration order is some arbitrary permutation of its elements, not the
insertion order) and for each URL calls `get_asset_content`.  One attempt can
end three ways: the content is obtained and added to the ZIM (then the loop
`break`s), a `KnownBadAssetFailedError` is raised (logged at debug level,
loop continues, counter untouched), or any other exception is raised (the
shared `bad_assets_count` is incremented under the lock and, when a
non-negative `bad_assets_threshold` is strictly exceeded, a fatal `OSError`
is raised; otherwise the loop continues with the next URL).

The model takes the iteration order of the set as an explicit list of
`(url, outcome)` pairs. -/

/-- Outcome of attempting one candidate URL inside `process_asset`:
`success` = `get_asset_content` returned content which was added to the ZIM;
`knownBad` = `KnownBadAssetFailedError` was raised (denylisted URL failed);
`failure` = any other exception was raised. -/
inductive AttemptOutcome where
  | success
  | knownBad
  | failure
deriving DecidableEq, Repr

/-- Result of one `process_asset` call: `added` = some URL succeeded and the
item was written, `exhausted` = every candidate failed and the asset is simply
absent from the archive, `fatal` = the bad-asset threshold was crossed and the
`OSError` aborts the whole run. -/
inductive AssetResult where
  | added
  | exhausted
  | fatal
deriving DecidableEq, Repr

/-- Model of `AssetProcessor.process_asset` (asset.py lines 76-122).
Arguments: `T` = `context.bad_assets_threshold` (an integer, negative means
unlimited), the candidate URLs in the set's iteration order paired with the
outcome their attempt would have, and `c` = the current shared
`bad_assets_count`.  Returns the list of URLs actually attempted, the final
counter value, and the call's result. -/
def processAsset (T : Int) :
    List (String × AttemptOutcome) → Nat → List String × Nat × AssetResult
  | [], c => ([], c, AssetResult.exhausted)
  | (u, o) :: rest, c =>
    match o with
    | AttemptOutcome.success => ([u], c, AssetResult.added)
    | AttemptOutcome.knownBad =>
      let r := processAsset T rest c
      (u :: r.1, r.2)
    | AttemptOutcome.failure =>
      if 0 ≤ T ∧ T < (c : Int) + 1 then ([u], c + 1, AssetResult.fatal)
      else
        let r := processAsset T rest (c + 1)
        (u :: r.1, r.2)

/-- Number of `failure` outcomes in an attempt list. -/
def failCount (l : List (String × AttemptOutcome)) : Nat :=
  l.countP (fun e => e.2 == AttemptOutcome.failure)

/-- The attempts that actually happen absent an abort: everything up to and
including the first `success` (the `break` in the loop). -/
def truncAtSuccess : List (String × AttemptOutcome) → List (String × AttemptOutcome)
  | [] => []
  | e :: rest =>
    if e.2 = AttemptOutcome.success then [e] else e :: truncAtSuccess rest

/-- Model of the asset phase of the run: `process_asset` is called for every
accumulated asset in turn, threading the shared `bad_assets_count`; a `fatal`
result propagates and aborts the phase (later assets are not processed).
Returns the final counter and the per-asset results until the abort. -/
def processRun (T : Int) :
    List (List (String × AttemptOutcome)) → Nat → Nat × List AssetResult
  | [], c => (c, [])
  | a :: rest, c =>
    let r := processAsset T a c
    if r.2.2 = AssetResult.fatal then (r.2.1, [AssetResult.fatal])
    else
      let k := processRun T rest r.2.1
      (k.1, r.2.2 :: k.2)

/-- Total number of non-denylisted failures the run encounters absent an
abort: per asset, the failures among the attempts up to its first success. -/
def totalFails (assets : List (List (String × AttemptOutcome))) : Nat :=
  (assets.map (fun a => failCount (truncAtSuccess a))).sum

theorem failCount_cons (e : String × AttemptOutcome) (l : List (String × AttemptOutcome)) :
    failCount (e :: l) =
      (if e.2 = AttemptOutcome.failure then 1 else 0) + failCount l := by
  simp only [failCount, List.countP_cons]
  by_cases h : e.2 = AttemptOutcome.failure
  · simp [h]; omega
  · simp [h]

theorem processAsset_no_fatal (T : Int) (a : List (String × AttemptOutcome)) (c : Nat)
    (h : T < 0 ∨ (c : Int) + failCount (truncAtSuccess a) ≤ T) :
    (processAsset T a c).2 =
      (c + failCount (truncAtSuccess a),
       if a.any (fun e => e.2 == AttemptOutcome.success) then AssetResult.added
       else AssetResult.exhausted) := by
  induction a generalizing c with
  | nil => simp [processAsset, truncAtSuccess, failCount]
  | cons e rest ih =>
    obtain ⟨u, o⟩ := e
    cases o with
    | success =>
      simp [processAsset, truncAtSuccess, failCount]
    | knownBad =>
      have hfc : failCount (truncAtSuccess ((u, AttemptOutcome.knownBad) :: rest))
          = failCount (truncAtSuccess rest) := by
        simp [truncAtSuccess, failCount_cons]
      rw [hfc] at h
      simp only [processAsset]
      rw [ih c h, hfc]
      have hb : (AttemptOutcome.knownBad == AttemptOutcome.success) = false := by decide
      rw [List.any_cons, hb, Bool.false_or]
    | failure =>
      have hfc : failCount (truncAtSuccess ((u, AttemptOutcome.failure) :: rest))
          = 1 + failCount (truncAtSuccess rest) := by
        simp [truncAtSuccess, failCount_cons]
      rw [hfc] at h
      have hcond : ¬ (0 ≤ T ∧ T < (c : Int) + 1) := by
        rcases h with h | h
        · omega
        · push_neg
          intro h0
          have : (0 : Int) ≤ failCount (truncAtSuccess rest) := Int.ofNat_nonneg _
          omega
      have h' : T < 0 ∨ ((c + 1 : Nat) : Int) + failCount (truncAtSuccess rest) ≤ T := by
        rcases h with h | h
        · exact Or.inl h
        · right; push_cast at h ⊢; omega
      simp only [processAsset, hcond, if_false]
      rw [ih (c + 1) h', hfc]
      have hb : (AttemptOutcome.failure == AttemptOutcome.success) = false := by decide
      rw [List.any_cons, hb, Bool.false_or, Prod.mk.injEq]
      exact ⟨by omega, rfl⟩

theorem processAsset_fatal (T : Int) (a : List (String × AttemptOutcome)) (c : Nat)
    (h0 : 0 ≤ T) (hc : (c : Int) ≤ T)
    (h : T < (c : Int) + failCount (truncAtSuccess a)) :
    (processAsset T a c).2 = (T.toNat + 1, AssetResult.fatal) := by
  induction a generalizing c with
  | nil =>
    exfalso
    simp [truncAtSuccess, failCount] at h
    omega
  | cons e rest ih =>
    obtain ⟨u, o⟩ := e
    cases o with
    | success =>
      exfalso
      simp [truncAtSuccess, failCount] at h
      omega
    | knownBad =>
      have h' : T < (c : Int) + failCount (truncAtSuccess rest) := by
        simpa [truncAtSuccess, failCount_cons] using h
      simp only [processAsset, truncAtSuccess]
      rw [ih c hc h']
    | failure =>
      have hfc : failCount (truncAtSuccess ((u, AttemptOutcome.failure) :: rest))
          = 1 + failCount (truncAtSuccess rest) := by
        simp [truncAtSuccess, failCount_cons]
      rw [hfc] at h
      by_cases hcond : 0 ≤ T ∧ T < (c : Int) + 1
      · have hTc : T = (c : Int) := by omega
        simp only [processAsset, hcond, if_true]
        have : T.toNat = c := by omega
        simp [this]
      · have hc' : ((c + 1 : Nat) : Int) ≤ T := by push_cast; omega
        have h' : T < ((c + 1 : Nat) : Int) + failCount (truncAtSuccess rest) := by
          push_cast at h ⊢; omega
        simp only [processAsset, hcond, if_false]
        rw [ih (c + 1) hc' h']

theorem processRun_no_fatal (T : Int) (assets : List (List (String × AttemptOutcome)))
    (c : Nat) (h : T < 0 ∨ (c : Int) + totalFails assets ≤ T) :
    (processRun T assets c).1 = c + totalFails assets
      ∧ AssetResult.fatal ∉ (processRun T assets c).2 := by
  induction assets generalizing c with
  | nil => simp [processRun, totalFails]
  | cons a rest ih =>
    have htf : totalFails (a :: rest)
        = failCount (truncAtSuccess a) + totalFails rest := by
      simp [totalFails]
    rw [htf] at h
    have ha : T < 0 ∨ (c : Int) + failCount (truncAtSuccess a) ≤ T := by
      rcases h with h | h
      · exact Or.inl h
      · right
        have : (0 : Int) ≤ totalFails rest := Int.ofNat_nonneg _
        omega
    have hpa := processAsset_no_fatal T a c ha
    have hres : (processAsset T a c).2.2 ≠ AssetResult.fatal := by
      rw [hpa]
      by_cases hx : a.any (fun e => e.2 == AttemptOutcome.success) <;> simp [hx]
    have hcount : (processAsset T a c).2.1 = c + failCount (truncAtSuccess a) := by
      rw [hpa]
    have h' : T < 0 ∨ ((c + failCount (truncAtSuccess a) : Nat) : Int) + totalFails rest ≤ T := by
      rcases h with h | h
      · exact Or.inl h
      · right; push_cast; omega
    have hih := ih (c + failCount (truncAtSuccess a)) h'
    have hrun : processRun T (a :: rest) c
        = ((processRun T rest (processAsset T a c).2.1).1,
           (processAsset T a c).2.2 :: (processRun T rest (processAsset T a c).2.1).2) := by
      simp only [processRun]
      rw [if_neg hres]
    rw [hrun, hcount, htf]
    constructor
    · rw [hih.1]; omega
    · intro hmem
      rcases List.mem_cons.mp hmem with hmem | hmem
      · exact hres hmem.symm
      · exact hih.2 hmem

theorem processRun_fatal (T : Int) (assets : List (List (String × AttemptOutcome)))
    (c : Nat) (h0 : 0 ≤ T) (hc : (c : Int) ≤ T)
    (h : T < (c : Int) + totalFails assets) :
    (processRun T assets c).1 = T.toNat + 1
      ∧ AssetResult.fatal ∈ (processRun T assets c).2 := by
  induction assets generalizing c with
  | nil =>
    exfalso
    simp [totalFails] at h
    omega
  | cons a rest ih =>
    have htf : totalFails (a :: rest)
        = failCount (truncAtSuccess a) + totalFails rest := by
      simp [totalFails]
    rw [htf] at h
    by_cases hfa : T < (c : Int) + failCount (truncAtSuccess a)
    · have hpa := processAsset_fatal T a c h0 hc hfa
      simp only [processRun, hpa]
      simp
    · push_neg at hfa
      have hpa := processAsset_no_fatal T a c (Or.inr hfa)
      have hres : (processAsset T a c).2.2 ≠ AssetResult.fatal := by
        rw [hpa]
        by_cases hx : a.any (fun e => e.2 == AttemptOutcome.success) <;> simp [hx]
      have hcount : (processAsset T a c).2.1 = c + failCount (truncAtSuccess a) := by
        rw [hpa]
      have hc' : ((c + failCount (truncAtSuccess a) : Nat) : Int) ≤ T := by
        push_cast; omega
      have h' : T < ((c + failCount (truncAtSuccess a) : Nat) : Int) + totalFails rest := by
        push_cast; omega
      have hih := ih (c + failCount (truncAtSuccess a)) hc' h'
      have hrun : processRun T (a :: rest) c
          = ((processRun T rest (processAsset T a c).2.1).1,
             (processAsset T a c).2.2 :: (processRun T rest (processAsset T a c).2.1).2) := by
        simp only [processRun]
        rw [if_neg hres]
      rw [hrun, hcount]
      exact ⟨hih.1, List.mem_cons.mpr (Or.inr hih.2)⟩

theorem processAsset_filter_knownBad (T : Int) (a : List (String × AttemptOutcome)) (c : Nat) :
    (processAsset T (a.filter (fun e => e.2 != AttemptOutcome.knownBad)) c).2
      = (processAsset T a c).2 := by
  induction a generalizing c with
  | nil => rfl
  | cons e rest ih =>
    obtain ⟨u, o⟩ := e
    cases o with
    | success => simp [processAsset, List.filter_cons]
    | knownBad =>
      have hf : List.filter (fun e => e.2 != AttemptOutcome.knownBad)
            ((u, AttemptOutcome.knownBad) :: rest)
          = List.filter (fun e => e.2 != AttemptOutcome.knownBad) rest := by
        simp [List.filter_cons]
      rw [hf, ih c]
      simp only [processAsset]
    | failure =>
      have hf : List.filter (fun e => e.2 != AttemptOutcome.knownBad)
            ((u, AttemptOutcome.failure) :: rest)
          = (u, AttemptOutcome.failure)
            :: List.filter (fun e => e.2 != AttemptOutcome.knownBad) rest := by
        simp [List.filter_cons]
      rw [hf]
      by_cases hcond : 0 ≤ T ∧ T < (c : Int) + 1
      · simp [processAsset, hcond]
      · simp only [processAsset, hcond, if_false]
        rw [ih (c + 1)]

theorem processRun_filter_knownBad (T : Int)
    (assets : List (List (String × AttemptOutcome))) (c : Nat) :
    processRun T (assets.map (fun a => a.filter (fun e => e.2 != AttemptOutcome.knownBad))) c
      = processRun T assets c := by
  induction assets generalizing c with
  | nil => rfl
  | cons a rest ih =>
    simp only [List.map_cons, processRun, processAsset_filter_knownBad]
    by_cases hres : (processAsset T a c).2.2 = AssetResult.fatal
    · simp [hres]
    · simp only [hres, if_neg, if_false]
      rw [ih]

/-- C1 (counterexample to the claim as stated): the candidate URLs of an
asset are kept in a Python `set`, whose iteration order is an arbitrary
permutation of its elements, not the first-seen order.  Concretely: with
discovery order `["u1", "u2"]` (both attempts succeeding) the claim requires
the first and only attempted URL to be `"u1"`, but an execution in which the
set iterates as `["u2", "u1"]` — a permutation of the very same elements —
attempts `"u2"` first, so the first URL that yields content and is added to
the archive is not the first-discovered one. -/
theorem c1_discovery_order_counterexample :
    List.Perm ["u2", "u1"] ["u1", "u2"]
    ∧ (processAsset 0
        [("u2", AttemptOutcome.success), ("u1", AttemptOutcome.success)] 0).1 = ["u2"]
    ∧ (processAsset 0
        [("u1", AttemptOutcome.success), ("u2", AttemptOutcome.success)] 0).1 = ["u1"]
    ∧ ("u2" : String) ≠ "u1" :=
  ⟨by decide, rfl, rfl, by decide⟩

/-- C1 (amended): `process_asset` attempts the candidate URLs sequentially in
the iteration order of the accumulated set (which need not be the discovery
order), and as soon as one URL yields content and the item is added to the
archive the loop `break`s: no further candidate URL for that path is
attempted.  Formally: if `u` is the first candidate whose attempt succeeds
and the failures before it do not cross the bad-asset threshold, then the
attempted URLs are exactly those up to and including `u`, in iteration
order, the counter grows by the number of failures before `u`, and the asset
is added; the candidates after `u` are never attempted. -/
theorem c1_first_success_stops_attempts (T : Int) (c : Nat)
    (pre post : List (String × AttemptOutcome)) (u : String)
    (hpre : ∀ e ∈ pre, e.2 ≠ AttemptOutcome.success)
    (hth : T < 0 ∨ (c : Int) + failCount pre ≤ T) :
    processAsset T (pre ++ (u, AttemptOutcome.success) :: post) c
      = (pre.map Prod.fst ++ [u], c + failCount pre, AssetResult.added) := by
  induction pre generalizing c with
  | nil => simp [processAsset, failCount]
  | cons e pre' ih =>
    obtain ⟨v, o⟩ := e
    have hv : o ≠ AttemptOutcome.success := hpre (v, o) (List.mem_cons_self _ _)
    have hpre' : ∀ e ∈ pre', e.2 ≠ AttemptOutcome.success := fun e he =>
      hpre e (List.mem_cons_of_mem _ he)
    cases o with
    | success => exact absurd rfl hv
    | knownBad =>
      have hfc : failCount ((v, AttemptOutcome.knownBad) :: pre') = failCount pre' := by
        rw [failCount_cons]; simp
      rw [hfc] at hth
      simp only [List.cons_append, processAsset, List.append_eq]
      rw [ih c hpre' hth, hfc]
      simp
    | failure =>
      have hfc : failCount ((v, AttemptOutcome.failure) :: pre')
          = 1 + failCount pre' := by
        rw [failCount_cons]; simp
      rw [hfc] at hth
      have hcond : ¬ (0 ≤ T ∧ T < (c : Int) + 1) := by
        rcases hth with h | h
        · omega
        · push_neg
          intro h0
          have : (0 : Int) ≤ failCount pre' := Int.ofNat_nonneg _
          omega
      have hth' : T < 0 ∨ ((c + 1 : Nat) : Int) + failCount pre' ≤ T := by
        rcases hth with h | h
        · exact Or.inl h
        · right; push_cast at h ⊢; omega
      simp only [List.cons_append, processAsset, hcond, if_false, List.append_eq]
      rw [ih (c + 1) hpre' hth', hfc]
      have harith : c + 1 + failCount pre' = c + (1 + failCount pre') := by omega
      rw [List.map_cons, List.cons_append, harith]

/-- Witness for `c1_first_success_stops_attempts`: threshold `-1` (unlimited),
candidates iterated as `a` (known-bad failure), `b` (other failure), `c`
(success), `d` (never attempted): the attempts are `[a, b, c]`, the counter
ends at `1`, and the asset is added. -/
theorem c1_first_success_stops_attempts_witness :
    processAsset (-1)
        [("a", AttemptOutcome.knownBad), ("b", AttemptOutcome.failure),
         ("c", AttemptOutcome.success), ("d", AttemptOutcome.failure)] 0
      = (["a", "b", "c"], 1, AssetResult.added) := by
  have h := c1_first_success_stops_attempts (-1) 0
    [("a", AttemptOutcome.knownBad), ("b", AttemptOutcome.failure)]
    [("d", AttemptOutcome.failure)] "c"
    (by decide) (Or.inl (by decide))
  simpa using h

/-- C3: with a configured bad-asset threshold `T ≥ 0`, starting from a zero
counter, the asset phase aborts with the fatal error exactly when the number
of non-denylisted failures exceeds `T` (so the `(T+1)`-th such failure is the
one that raises: at the abort the counter reads `T + 1`); with at most `T`
failures nothing is fatal and the counter just counts the failures;
denylisted (`KnownBadAssetFailedError`) attempts can be removed from every
asset without changing the outcome (they never touch the counter); a
negative threshold never aborts. -/
theorem c3_bad_asset_threshold (T : Int)
    (assets : List (List (String × AttemptOutcome))) :
    (T < 0 → AssetResult.fatal ∉ (processRun T assets 0).2)
    ∧ (0 ≤ T →
        (AssetResult.fatal ∈ (processRun T assets 0).2 ↔ T < (totalFails assets : Int)))
    ∧ (AssetResult.fatal ∈ (processRun T assets 0).2 →
        (processRun T assets 0).1 = T.toNat + 1)
    ∧ (AssetResult.fatal ∉ (processRun T assets 0).2 →
        (processRun T assets 0).1 = totalFails assets)
    ∧ processRun T
        (assets.map (fun a => a.filter (fun e => e.2 != AttemptOutcome.knownBad))) 0
        = processRun T assets 0 := by
  refine ⟨?_, ?_, ?_, ?_, processRun_filter_knownBad T assets 0⟩
  · intro hT
    exact (processRun_no_fatal T assets 0 (Or.inl hT)).2
  · intro hT
    constructor
    · intro hmem
      by_contra hlt
      push_neg at hlt
      exact (processRun_no_fatal T assets 0 (Or.inr (by push_cast; omega))).2 hmem
    · intro hlt
      exact (processRun_fatal T assets 0 hT (by push_cast; omega)
        (by push_cast; omega)).2
  · intro hmem
    by_cases hT : 0 ≤ T
    · by_cases hlt : T < (totalFails assets : Int)
      · exact (processRun_fatal T assets 0 hT (by push_cast; omega)
          (by push_cast; omega)).1
      · exact absurd hmem
          (processRun_no_fatal T assets 0 (Or.inr (by push_cast; omega))).2
    · exact absurd hmem
        (processRun_no_fatal T assets 0 (Or.inl (by omega))).2
  · intro hmem
    by_cases hok : T < 0 ∨ ((0 : Nat) : Int) + totalFails assets ≤ T
    · have := (processRun_no_fatal T assets 0 hok).1
      omega
    · push_neg at hok
      exact absurd ((processRun_fatal T assets 0 hok.1 (by push_cast; omega)
        (by push_cast; omega)).2) hmem

/-- Witness for `c3_bad_asset_threshold`: threshold `0`, two assets each with
one plain failure: the very first failure (the `(T+1)`-th with `T = 0`) is
fatal, the counter reads `1`, and removing a denylisted attempt changes
nothing. -/
theorem c3_bad_asset_threshold_witness :
    AssetResult.fatal ∈
      (processRun 0 [[("x", AttemptOutcome.failure)], [("y", AttemptOutcome.failure)]] 0).2
    ∧ (processRun 0 [[("x", AttemptOutcome.failure)], [("y", AttemptOutcome.failure)]] 0).1 = 1 := by
  have h := c3_bad_asset_threshold 0
    [[("x", AttemptOutcome.failure)], [("y", AttemptOutcome.failure)]]
  have hmem := (h.2.1 (by decide)).mpr (by decide)
  exact ⟨hmem, h.2.2.1 hmem⟩

end LibretextsSpec

/-! ## Asset-to-download map accumulation
(`mindtouch2zim/processor.py`: `HtmlUrlsRewriter.add_item_to_download`,
`CssUrlsRewriter.__call__`, and the merge loops in `Processor._process_css`
and `Processor._process_page`)

The pass-local `items_to_download` dict maps a `ZimPath` to a `set[HttpUrl]`;
an event `(path, url)` either adds `url` to the existing entry's set or
creates the entry.  After each pass the local dict is merged into the run's
`self.items_to_download` entry by entry: `update` on an existing entry's set,
plain insertion otherwise.  Python dicts preserve insertion order and update
values in place; sets are modelled as duplicate-free lists, dicts as
association lists with unique keys. -/

/-- `set.add`: append the value unless already present. -/
def setAdd (s : List String) (u : String) : List String :=
  if u ∈ s then s else s ++ [u]

/-- Dict lookup (`path in dict` / `dict[path]`). -/
def findUrls (m : List (String × List String)) (p : String) : Option (List String) :=
  match m with
  | [] => none
  | (q, s) :: rest => if q = p then some s else findUrls rest p

/-- Model of `HtmlUrlsRewriter.add_item_to_download` (and of the per-URL body
of `CssUrlsRewriter.__call__`): if the path is already a key, add the URL to
its set; otherwise create the entry `{url}`. -/
def addItemToDownload (m : List (String × List String)) (p u : String) :
    List (String × List String) :=
  match m with
  | [] => [(p, [u])]
  | (q, s) :: rest =>
    if q = p then (q, setAdd s u) :: rest
    else (q, s) :: addItemToDownload rest p u

/-- A whole rewrite pass: the pass-local `items_to_download` built from the
`(zim_path, absolute_url)` events of that pass, starting from a fresh dict. -/
def passMap (events : List (String × String)) : List (String × List String) :=
  events.foldl (fun m e => addItemToDownload m e.1 e.2) []

/-- One step of the merge loop in `Processor._process_css` /
`Processor._process_page`: `if path in self.items_to_download:
self.items_to_download[path].update(urls) else:
self.items_to_download[path] = urls`. -/
def updateEntry (m : List (String × List String)) (p : String) (urls : List String) :
    List (String × List String) :=
  match m with
  | [] => [(p, urls)]
  | (q, s) :: rest =>
    if q = p then (q, urls.foldl setAdd s) :: rest
    else (q, s) :: updateEntry rest p urls

/-- Merging a pass-local dict into the accumulated run dict. -/
def mergeItems (g l : List (String × List String)) : List (String × List String) :=
  l.foldl (fun acc e => updateEntry acc e.1 e.2) g

/-- The accumulated `self.items_to_download` after a sequence of HTML/CSS
rewrite passes, each given by its `(zim_path, absolute_url)` events. -/
def runItems (passes : List (List (String × String))) : List (String × List String) :=
  passes.foldl (fun g evs => mergeItems g (passMap evs)) []

/-- `(path, url)` is recorded in the map: the entry for `path` exists and its
URL set contains `url`. -/
def urlMem (m : List (String × List String)) (p u : String) : Prop :=
  ∃ s, findUrls m p = some s ∧ u ∈ s

theorem setAdd_mem (s : List String) (u v : String) :
    v ∈ setAdd s u ↔ v ∈ s ∨ v = u := by
  unfold setAdd
  by_cases h : u ∈ s
  · simp only [h, if_true]
    constructor
    · exact Or.inl
    · rintro (hv | rfl)
      · exact hv
      · exact h
  · simp [h]

theorem foldl_setAdd_mem (urls s : List String) (v : String) :
    v ∈ urls.foldl setAdd s ↔ v ∈ s ∨ v ∈ urls := by
  induction urls generalizing s with
  | nil => simp
  | cons u rest ih =>
    rw [List.foldl_cons, ih, setAdd_mem]
    simp [or_assoc]

theorem findUrls_addItem_ne (m : List (String × List String)) (p u q : String)
    (h : q ≠ p) : findUrls (addItemToDownload m p u) q = findUrls m q := by
  induction m with
  | nil => simp [addItemToDownload, findUrls, Ne.symm h]
  | cons e rest ih =>
    obtain ⟨r, s⟩ := e
    by_cases hr : r = p
    · subst hr
      simp [addItemToDownload, findUrls, Ne.symm h]
    · simp only [addItemToDownload, hr, if_false, findUrls]
      by_cases hq : r = q
      · simp [hq]
      · simp [hq, ih]

theorem findUrls_addItem_self (m : List (String × List String)) (p u : String) :
    findUrls (addItemToDownload m p u) p
      = some (match findUrls m p with
              | some s => setAdd s u
              | none => [u]) := by
  induction m with
  | nil => simp [addItemToDownload, findUrls]
  | cons e rest ih =>
    obtain ⟨r, s⟩ := e
    by_cases hr : r = p
    · subst hr
      simp [addItemToDownload, findUrls]
    · simp [addItemToDownload, findUrls, hr, ih]

theorem findUrls_updateEntry_ne (m : List (String × List String))
    (p : String) (urls : List String) (q : String) (h : q ≠ p) :
    findUrls (updateEntry m p urls) q = findUrls m q := by
  induction m with
  | nil => simp [updateEntry, findUrls, Ne.symm h]
  | cons e rest ih =>
    obtain ⟨r, s⟩ := e
    by_cases hr : r = p
    · subst hr
      simp [updateEntry, findUrls, Ne.symm h]
    · simp only [updateEntry, hr, if_false, findUrls]
      by_cases hq : r = q
      · simp [hq]
      · simp [hq, ih]

theorem findUrls_updateEntry_self (m : List (String × List String))
    (p : String) (urls : List String) :
    findUrls (updateEntry m p urls) p
      = some (match findUrls m p with
              | some s => urls.foldl setAdd s
              | none => urls) := by
  induction m with
  | nil => simp [updateEntry, findUrls]
  | cons e rest ih =>
    obtain ⟨r, s⟩ := e
    by_cases hr : r = p
    · subst hr
      simp [updateEntry, findUrls]
    · simp [updateEntry, findUrls, hr, ih]

theorem findUrls_addItem_some (m : List (String × List String)) (p u : String)
    (s : List String) (h : findUrls m p = some s) :
    findUrls (addItemToDownload m p u) p = some (setAdd s u) := by
  rw [findUrls_addItem_self, h]

theorem findUrls_addItem_none (m : List (String × List String)) (p u : String)
    (h : findUrls m p = none) :
    findUrls (addItemToDownload m p u) p = some [u] := by
  rw [findUrls_addItem_self, h]

theorem findUrls_updateEntry_some (m : List (String × List String)) (p : String)
    (urls s : List String) (h : findUrls m p = some s) :
    findUrls (updateEntry m p urls) p = some (urls.foldl setAdd s) := by
  rw [findUrls_updateEntry_self, h]

theorem findUrls_updateEntry_none (m : List (String × List String)) (p : String)
    (urls : List String) (h : findUrls m p = none) :
    findUrls (updateEntry m p urls) p = some urls := by
  rw [findUrls_updateEntry_self, h]

theorem urlMem_addItem (m : List (String × List String)) (p u q v : String) :
    urlMem (addItemToDownload m p u) q v ↔ urlMem m q v ∨ (q = p ∧ v = u) := by
  by_cases hq : q = p
  · subst hq
    cases hfind : findUrls m q with
    | none =>
      unfold urlMem
      rw [findUrls_addItem_none m q u hfind, hfind]
      simp
    | some s =>
      unfold urlMem
      rw [findUrls_addItem_some m q u s hfind, hfind]
      constructor
      · rintro ⟨s', hs', hv⟩
        rw [Option.some.injEq] at hs'
        subst hs'
        rcases (setAdd_mem s u v).mp hv with hv | rfl
        · exact Or.inl ⟨s, rfl, hv⟩
        · exact Or.inr ⟨rfl, rfl⟩
      · rintro (⟨s', hs', hv⟩ | ⟨-, rfl⟩)
        · rw [Option.some.injEq] at hs'
          subst hs'
          exact ⟨_, rfl, (setAdd_mem s u v).mpr (Or.inl hv)⟩
        · exact ⟨_, rfl, (setAdd_mem s v v).mpr (Or.inr rfl)⟩
  · unfold urlMem
    rw [findUrls_addItem_ne m p u q hq]
    simp [hq]

theorem urlMem_updateEntry (m : List (String × List String))
    (p : String) (urls : List String) (q v : String) :
    urlMem (updateEntry m p urls) q v ↔ urlMem m q v ∨ (q = p ∧ v ∈ urls) := by
  by_cases hq : q = p
  · subst hq
    cases hfind : findUrls m q with
    | none =>
      unfold urlMem
      rw [findUrls_updateEntry_none m q urls hfind, hfind]
      simp
    | some s =>
      unfold urlMem
      rw [findUrls_updateEntry_some m q urls s hfind, hfind]
      constructor
      · rintro ⟨s', hs', hv⟩
        rw [Option.some.injEq] at hs'
        subst hs'
        rcases (foldl_setAdd_mem urls s v).mp hv with hv | hv
        · exact Or.inl ⟨s, rfl, hv⟩
        · exact Or.inr ⟨rfl, hv⟩
      · rintro (⟨s', hs', hv⟩ | ⟨-, hv⟩)
        · rw [Option.some.injEq] at hs'
          subst hs'
          exact ⟨_, rfl, (foldl_setAdd_mem urls s v).mpr (Or.inl hv)⟩
        · exact ⟨_, rfl, (foldl_setAdd_mem urls s v).mpr (Or.inr hv)⟩
  · unfold urlMem
    rw [findUrls_updateEntry_ne m p urls q hq]
    simp [hq]

theorem findUrls_cons (p : String) (s : List String)
    (rest : List (String × List String)) (q : String) :
    findUrls ((p, s) :: rest) q = if p = q then some s else findUrls rest q := rfl

theorem findUrls_isSome_iff (m : List (String × List String)) (q : String) :
    (findUrls m q).isSome ↔ q ∈ m.map Prod.fst := by
  induction m with
  | nil => simp [findUrls]
  | cons e rest ih =>
    obtain ⟨r, s⟩ := e
    rw [findUrls_cons]
    by_cases hr : r = q
    · simp [hr]
    · simp [hr, ih, Ne.symm hr]

theorem urlMem_mem_keys (m : List (String × List String)) (q v : String)
    (h : urlMem m q v) : q ∈ m.map Prod.fst := by
  obtain ⟨s, hs, -⟩ := h
  rw [← findUrls_isSome_iff, hs]
  rfl

theorem keys_addItem (m : List (String × List String)) (p u : String) :
    (addItemToDownload m p u).map Prod.fst
      = if p ∈ m.map Prod.fst then m.map Prod.fst
        else m.map Prod.fst ++ [p] := by
  induction m with
  | nil => simp [addItemToDownload]
  | cons e rest ih =>
    obtain ⟨r, s⟩ := e
    by_cases hr : r = p
    · subst hr
      simp [addItemToDownload]
    · simp only [addItemToDownload, hr, if_false, List.map_cons, ih]
      by_cases hp : p ∈ rest.map Prod.fst
      · simp [hp, Ne.symm hr]
      · simp [hp, Ne.symm hr]

theorem keys_updateEntry (m : List (String × List String)) (p : String)
    (urls : List String) :
    (updateEntry m p urls).map Prod.fst
      = if p ∈ m.map Prod.fst then m.map Prod.fst
        else m.map Prod.fst ++ [p] := by
  induction m with
  | nil => simp [updateEntry]
  | cons e rest ih =>
    obtain ⟨r, s⟩ := e
    by_cases hr : r = p
    · subst hr
      simp [updateEntry]
    · simp only [updateEntry, hr, if_false, List.map_cons, ih]
      by_cases hp : p ∈ rest.map Prod.fst
      · simp [hp, Ne.symm hr]
      · simp [hp, Ne.symm hr]

theorem nodup_keys_addItem (m : List (String × List String)) (p u : String)
    (h : (m.map Prod.fst).Nodup) :
    ((addItemToDownload m p u).map Prod.fst).Nodup := by
  rw [keys_addItem]
  by_cases hp : p ∈ m.map Prod.fst
  · simpa [hp] using h
  · simp only [hp, if_false]
    rw [List.nodup_append]
    refine ⟨h, List.nodup_singleton p, ?_⟩
    intro a ha hpa
    rw [List.mem_singleton] at hpa
    subst hpa
    exact hp ha

theorem nodup_keys_updateEntry (m : List (String × List String)) (p : String)
    (urls : List String) (h : (m.map Prod.fst).Nodup) :
    ((updateEntry m p urls).map Prod.fst).Nodup := by
  rw [keys_updateEntry]
  by_cases hp : p ∈ m.map Prod.fst
  · simpa [hp] using h
  · simp only [hp, if_false]
    rw [List.nodup_append]
    refine ⟨h, List.nodup_singleton p, ?_⟩
    intro a ha hpa
    rw [List.mem_singleton] at hpa
    subst hpa
    exact hp ha

theorem urlMem_foldl_addItem (events : List (String × String))
    (m0 : List (String × List String)) (q v : String) :
    urlMem (events.foldl (fun m e => addItemToDownload m e.1 e.2) m0) q v
      ↔ urlMem m0 q v ∨ (q, v) ∈ events := by
  induction events generalizing m0 with
  | nil => simp
  | cons e rest ih =>
    rw [List.foldl_cons, ih, urlMem_addItem]
    constructor
    · rintro ((h | ⟨rfl, rfl⟩) | h)
      · exact Or.inl h
      · exact Or.inr (List.mem_cons_self _ _)
      · exact Or.inr (List.mem_cons_of_mem _ h)
    · rintro (h | h)
      · exact Or.inl (Or.inl h)
      · rcases List.mem_cons.mp h with rfl | h
        · exact Or.inl (Or.inr ⟨rfl, rfl⟩)
        · exact Or.inr h

theorem nodup_keys_foldl_addItem (events : List (String × String))
    (m0 : List (String × List String)) (h : (m0.map Prod.fst).Nodup) :
    (((events.foldl (fun m e => addItemToDownload m e.1 e.2) m0)).map Prod.fst).Nodup := by
  induction events generalizing m0 with
  | nil => exact h
  | cons e rest ih =>
    rw [List.foldl_cons]
    exact ih _ (nodup_keys_addItem m0 e.1 e.2 h)

theorem urlMem_passMap (events : List (String × String)) (q v : String) :
    urlMem (passMap events) q v ↔ (q, v) ∈ events := by
  unfold passMap
  rw [urlMem_foldl_addItem]
  simp [urlMem, findUrls]

theorem nodup_keys_passMap (events : List (String × String)) :
    ((passMap events).map Prod.fst).Nodup :=
  nodup_keys_foldl_addItem events [] (by simp)

theorem urlMem_mergeItems (g l : List (String × List String))
    (hl : (l.map Prod.fst).Nodup) (q v : String) :
    urlMem (mergeItems g l) q v ↔ urlMem g q v ∨ urlMem l q v := by
  induction l generalizing g with
  | nil =>
    simp [mergeItems, urlMem, findUrls]
  | cons e rest ih =>
    obtain ⟨p, urls⟩ := e
    have hl' : (rest.map Prod.fst).Nodup := (List.nodup_cons.mp hl).2
    have hp : p ∉ rest.map Prod.fst := (List.nodup_cons.mp hl).1
    have hstep : mergeItems g ((p, urls) :: rest)
        = mergeItems (updateEntry g p urls) rest := rfl
    rw [hstep, ih (updateEntry g p urls) hl', urlMem_updateEntry]
    have hcons : urlMem ((p, urls) :: rest) q v
        ↔ (q = p ∧ v ∈ urls) ∨ urlMem rest q v := by
      unfold urlMem
      rw [findUrls_cons]
      by_cases hq : p = q
      · subst hq
        rw [if_pos rfl]
        constructor
        · rintro ⟨s, hs, hv⟩
          rw [Option.some.injEq] at hs
          subst hs
          exact Or.inl ⟨rfl, hv⟩
        · rintro (⟨-, hv⟩ | ⟨s, hs, hv⟩)
          · exact ⟨urls, rfl, hv⟩
          · exact absurd (urlMem_mem_keys rest p v ⟨s, hs, hv⟩) hp
      · simp only [if_neg hq]
        constructor
        · intro h
          exact Or.inr h
        · rintro (⟨rfl, -⟩ | h)
          · exact absurd rfl hq
          · exact h
    rw [hcons]
    tauto

theorem nodup_keys_mergeItems (g l : List (String × List String))
    (h : (g.map Prod.fst).Nodup) :
    ((mergeItems g l).map Prod.fst).Nodup := by
  induction l generalizing g with
  | nil => exact h
  | cons e rest ih =>
    have hstep : mergeItems g (e :: rest)
        = mergeItems (updateEntry g e.1 e.2) rest := rfl
    rw [hstep]
    exact ih _ (nodup_keys_updateEntry g e.1 e.2 h)

theorem urlMem_foldl_merge (passes : List (List (String × String)))
    (g0 : List (String × List String)) (q v : String) :
    urlMem (passes.foldl (fun g evs => mergeItems g (passMap evs)) g0) q v
      ↔ urlMem g0 q v ∨ ∃ evs ∈ passes, (q, v) ∈ evs := by
  induction passes generalizing g0 with
  | nil => simp
  | cons evs rest ih =>
    rw [List.foldl_cons, ih, urlMem_mergeItems g0 (passMap evs) (nodup_keys_passMap evs),
      urlMem_passMap]
    constructor
    · rintro ((h | h) | ⟨l, hl, h⟩)
      · exact Or.inl h
      · exact Or.inr ⟨evs, List.mem_cons_self _ _, h⟩
      · exact Or.inr ⟨l, List.mem_cons_of_mem _ hl, h⟩
    · rintro (h | ⟨l, hl, h⟩)
      · exact Or.inl (Or.inl h)
      · rcases List.mem_cons.mp hl with rfl | hl
        · exact Or.inl (Or.inr h)
        · exact Or.inr ⟨l, hl, h⟩

/-- C2: across all HTML-page and CSS rewrite passes of a run, the accumulated
`self.items_to_download` has exactly one entry per archive path (its key list
has no duplicates, so no second entry is ever created), the URL set of a
path's entry holds exactly the URLs seen for that path in any pass so far
(the union, so an entry is never replaced wholesale), and URLs already
recorded survive any further passes. -/
theorem c2_map_accumulation (passes : List (List (String × String))) :
    ((runItems passes).map Prod.fst).Nodup
    ∧ (∀ p u, urlMem (runItems passes) p u ↔ (p, u) ∈ passes.flatten)
    ∧ (∀ p u extra, urlMem (runItems passes) p u →
        urlMem (runItems (passes ++ extra)) p u) := by
  have hchar : ∀ (ps : List (List (String × String))) (p u : String),
      urlMem (runItems ps) p u ↔ (p, u) ∈ ps.flatten := by
    intro ps p u
    unfold runItems
    rw [urlMem_foldl_merge]
    simp [urlMem, findUrls, List.mem_flatten]
  refine ⟨?_, hchar passes, ?_⟩
  · unfold runItems
    have : ∀ (ps : List (List (String × String))) (g0 : List (String × List String)),
        (g0.map Prod.fst).Nodup →
        ((ps.foldl (fun g evs => mergeItems g (passMap evs)) g0).map Prod.fst).Nodup := by
      intro ps
      induction ps with
      | nil => intro g0 h; exact h
      | cons evs rest ih =>
        intro g0 h
        rw [List.foldl_cons]
        exact ih _ (nodup_keys_mergeItems g0 (passMap evs) h)
    exact this passes [] (by simp)
  · intro p u extra h
    rw [hchar] at h
    rw [hchar]
    rw [List.flatten_append]
    exact List.mem_append.mpr (Or.inl h)

/-- Witness for `c2_map_accumulation`: two passes mentioning the same path
`p`: its single entry accumulates both URLs and the key list is
duplicate-free. -/
theorem c2_map_accumulation_witness :
    urlMem (runItems [[("p", "u1")], [("p", "u2")]]) "p" "u2"
    ∧ ((runItems [[("p", "u1")], [("p", "u2")]]).map Prod.fst).Nodup := by
  have h := c2_map_accumulation [[("p", "u1")], [("p", "u2")]]
  exact ⟨(h.2.1 "p" "u2").mpr (by simp), h.1⟩

/-! ## Header fingerprint (`mindtouch2zim/asset.py`, `_get_header_data_for`)

The Python loop is
`for header in ("ETag", "Last-Modified", "Content-Length"):
   if header := headers.get(header): return HeaderData(ident=header, ...)`
— the walrus test uses Python truthiness, so a header that is present with
an empty string value is skipped exactly like an absent one. -/

/-- `(ident, content_type)` as returned by `_get_header_data_for`. -/
structure HeaderData where
  ident : String
  content_type : Option String
deriving DecidableEq, Repr

/-- `headers.get(name)`: first entry with the given name, else `None`. -/
def headersGet (hs : List (String × String)) (name : String) : Option String :=
  match hs with
  | [] => none
  | (k, v) :: rest => if k = name then some v else headersGet rest name

/-- Python truthiness of `headers.get(h)`: `None` and the empty string are
falsy, any other string is truthy. -/
def truthy : Option String → Option String
  | none => none
  | some v => if v = "" then none else some v

/-- Model of `AssetProcessor._get_header_data_for` (asset.py lines 124-145):
return the first truthy header among `ETag`, `Last-Modified`,
`Content-Length` as ident, else the sentinel `"-1"`, always together with
the response's `Content-Type`. -/
def getHeaderDataFor (hs : List (String × String)) : HeaderData :=
  let contentType := headersGet hs "Content-Type"
  match truthy (headersGet hs "ETag") with
  | some v => ⟨v, contentType⟩
  | none =>
    match truthy (headersGet hs "Last-Modified") with
    | some v => ⟨v, contentType⟩
    | none =>
      match truthy (headersGet hs "Content-Length") with
      | some v => ⟨v, contentType⟩
      | none => ⟨"-1", contentType⟩

/-- C8 (counterexample to the claim as stated): with response headers
containing both `ETag` (present, with empty value) and `Last-Modified`
(value `"lm"`), the claim requires the ident to be the first present header
— the `ETag` value `""` — but the code skips the falsy empty string and
returns the `Last-Modified` value `"lm"`. -/
theorem c8_fingerprint_counterexample :
    headersGet [("ETag", ""), ("Last-Modified", "lm")] "ETag" = some ""
    ∧ getHeaderDataFor [("ETag", ""), ("Last-Modified", "lm")]
        = ⟨"lm", none⟩
    ∧ ("lm" : String) ≠ "" := by
  refine ⟨by decide, by decide, by decide⟩

/-- C8 (amended): the ident is the value of the first header in priority
order `ETag`, `Last-Modified`, `Content-Length` that is present with a
non-empty value (so with both `ETag` and `Last-Modified` present and
non-empty the `ETag` value wins); when none of the three is present with a
non-empty value the ident is the sentinel `"-1"`; the response's
`Content-Type` is returned alongside in every case. -/
theorem c8_fingerprint_priority (hs : List (String × String)) :
    ((getHeaderDataFor hs).content_type = headersGet hs "Content-Type")
    ∧ (∀ e, headersGet hs "ETag" = some e → e ≠ "" →
        (getHeaderDataFor hs).ident = e)
    ∧ (truthy (headersGet hs "ETag") = none →
        ∀ l, headersGet hs "Last-Modified" = some l → l ≠ "" →
          (getHeaderDataFor hs).ident = l)
    ∧ (truthy (headersGet hs "ETag") = none →
        truthy (headersGet hs "Last-Modified") = none →
        ∀ c, headersGet hs "Content-Length" = some c → c ≠ "" →
          (getHeaderDataFor hs).ident = c)
    ∧ (truthy (headersGet hs "ETag") = none →
        truthy (headersGet hs "Last-Modified") = none →
        truthy (headersGet hs "Content-Length") = none →
        (getHeaderDataFor hs).ident = "-1") := by
  refine ⟨?_, ?_, ?_, ?_, ?_⟩
  · unfold getHeaderDataFor
    cases truthy (headersGet hs "ETag") with
    | some v => rfl
    | none =>
      cases truthy (headersGet hs "Last-Modified") with
      | some v => rfl
      | none =>
        cases truthy (headersGet hs "Content-Length") with
        | some v => rfl
        | none => rfl
  · intro e he hne
    have ht : truthy (headersGet hs "ETag") = some e := by
      rw [he]; simp [truthy, hne]
    unfold getHeaderDataFor
    rw [ht]
  · intro hE l hl hnl
    have ht : truthy (headersGet hs "Last-Modified") = some l := by
      rw [hl]; simp [truthy, hnl]
    unfold getHeaderDataFor
    rw [hE, ht]
  · intro hE hL c hc hnc
    have ht : truthy (headersGet hs "Content-Length") = some c := by
      rw [hc]; simp [truthy, hnc]
    unfold getHeaderDataFor
    rw [hE, hL, ht]
  · intro hE hL hC
    unfold getHeaderDataFor
    rw [hE, hL, hC]

/-- Witness for `c8_fingerprint_priority`: headers with non-empty `ETag` and
`Last-Modified`: the ident is the `ETag` value; and with no identity header
the ident is the sentinel. -/
theorem c8_fingerprint_priority_witness :
    (getHeaderDataFor
        [("ETag", "abc"), ("Last-Modified", "lm"), ("Content-Type", "text/css")]).ident
      = "abc"
    ∧ (getHeaderDataFor [("Content-Type", "text/css")]).ident = "-1" :=
  ⟨(c8_fingerprint_priority
      [("ETag", "abc"), ("Last-Modified", "lm"), ("Content-Type", "text/css")]).2.1
      "abc" (by decide) (by decide),
   (c8_fingerprint_priority [("Content-Type", "text/css")]).2.2.2.2
      (by decide) (by decide) (by decide)⟩

/-! ## HTML rewriting rules (`mindtouch2zim/processor.py` lines 567-624)

The standard rewrite rules of the library are cleared and replaced by the
repository's three rules: `rewrite_href_src_attributes`,
`drop_sizes_and_srcset_attribute`, and `refuse_unsupported_tags`. -/

/-- Model of `refuse_unsupported_tags` (processor.py lines 619-624): the rule
returns without effect for any tag not in the hard-coded list `["picture"]`
and raises `UnsupportedTagError` for a tag in that list.  `some msg`
represents the raised error. -/
def refuseUnsupportedTags (tag : String) : Option String :=
  if tag ∉ ["picture"] then none
  else some ("Tag " ++ tag ++ " is not yet supported in this scraper")

/-- Model of `rewrite_href_src_attributes` (processor.py lines 573-610).
The calls into the URL rewriter are kept abstract: `rwNav` is the
`rewriten_url` the rewriter returns with `rewrite_all_url=False` (the `a`
branch), `rwAsset` the one with `rewrite_all_url=True` (the `img` branch),
and `libraryPath` is `url_rewriter.library_path.value`.  `Except.error`
represents a raised exception (which aborts the scraper), `Except.ok none`
the rule returning without rewriting anything. -/
def rewriteHrefSrcAttributes (tag attrName : String) (attrValue : Option String)
    (rwNav rwAsset libraryPath : String) :
    Except String (Option (String × String)) :=
  if (attrName ≠ "href" ∧ attrName ≠ "src") ∨ attrValue = none ∨ attrValue = some "" then
    Except.ok none
  else
    let newVal : Option String :=
      if tag = "a" then
        some (if libraryPath.isPrefixOf rwNav
              then "#/" ++ rwNav.drop libraryPath.length
              else rwNav)
      else if tag = "img" then some ("content/" ++ rwAsset)
      else none
    match newVal with
    | none => Except.error "empty new value"
    | some v =>
      if v = "" then Except.error "empty new value"
      else Except.ok (some (attrName, v))

/-- C5 (counterexample to the claim as stated): the tag `video` is outside
the supported set, yet neither rewrite rule raises on it: a `<video>` tag
with an attribute other than `href`/`src` passes through both rules without
any error — the run is not aborted.  Only `picture` triggers
`UnsupportedTagError`. -/
theorem c5_unsupported_tag_counterexample :
    refuseUnsupportedTags "video" = none
    ∧ refuseUnsupportedTags "picture"
        = some "Tag picture is not yet supported in this scraper"
    ∧ rewriteHrefSrcAttributes "video" "controls" (some "x") "r" "r" "lib"
        = Except.ok none := by
  refine ⟨by decide, by decide, rfl⟩

/-- C5 (amended): the rewriter raises the unsupported-content error exactly
for the tag `picture`; in addition, a non-empty `href` or `src` attribute on
any tag other than `a` or `img` raises a `ValueError`; any other tag passes
through without error. -/
theorem c5_unsupported_tag_errors (tag attrName : String) (attrValue : Option String)
    (rwNav rwAsset libraryPath : String) :
    (refuseUnsupportedTags tag = none ↔ tag ≠ "picture")
    ∧ (tag ≠ "a" → tag ≠ "img" → (attrName = "href" ∨ attrName = "src") →
        ∀ v, attrValue = some v → v ≠ "" →
          rewriteHrefSrcAttributes tag attrName attrValue rwNav rwAsset libraryPath
            = Except.error "empty new value") := by
  constructor
  · unfold refuseUnsupportedTags
    by_cases h : tag = "picture"
    · subst h
      simp
    · simp [h]
  · intro hta hti hattr v hv hne
    unfold rewriteHrefSrcAttributes
    have hcond : ¬ ((attrName ≠ "href" ∧ attrName ≠ "src")
        ∨ attrValue = none ∨ attrValue = some "") := by
      push_neg
      refine ⟨?_, by rw [hv]; simp, by rw [hv]; simp [hne]⟩
      intro hh
      rcases hattr with h | h
      · exact absurd h hh
      · exact h
    rw [if_neg hcond]
    simp [hta, hti]

/-- Witness for `c5_unsupported_tag_errors`: a `src` attribute on a `video`
tag raises the `ValueError`, and `video` is not `picture`. -/
theorem c5_unsupported_tag_errors_witness :
    rewriteHrefSrcAttributes "video" "src" (some "movie.mp4") "r" "a" "lib"
      = Except.error "empty new value"
    ∧ refuseUnsupportedTags "video" = none := by
  have h := c5_unsupported_tag_errors "video" "src" (some "movie.mp4") "r" "a" "lib"
  exact ⟨h.2 (by decide) (by decide) (Or.inr rfl) "movie.mp4" rfl (by decide),
    h.1.mpr (by decide)⟩

/-! ## Image transcoding resize decision
(`mindtouch2zim/asset.py`, `AssetProcessor._get_image_content`, lines 170-195)

The optimization step compares
`image.width * image.height <= CONTEXT.maximum_image_pixels` (line 173) and,
over budget, calls `resizeimage.resize_cover` with target dimensions
`[int(math.sqrt(CONTEXT.maximum_image_pixels * width / height)),
int(math.sqrt(CONTEXT.maximum_image_pixels * height / width))]`
(lines 176-194).  But asset.py never binds the uppercase name `CONTEXT`:
its imports bring in `Context` (line 19) and line 46 binds the lowercase
instance `context = Context.get()`, which every other access in the module
uses (`context.bad_assets_threshold`, `context.s3_url_with_credentials`,
`context.bad_assets_regex`); `CONTEXT` lives only in the `mindtouch2zim.context`
module, which asset.py does not import it from.  So evaluating line 173
raises `NameError` on every call, before any resize decision is made.

The model therefore has two layers: `getImageContentDims` performs the
Python name resolution first and raises, and `transcodeDims` is the resize
computation the lines were evidently intended to perform (the behavior the
claim and the spec describe), with the float arithmetic idealised as exact:
`int(math.sqrt(B * W / H)) = ⌊√(B·W/H)⌋ = ⌊√(B·W·H) / H⌋ = Nat.sqrt (B·W·H) / H`
(natural division), and symmetrically for the height. -/

/-- The module-level names asset.py binds that the resize code could refer
to (import block lines 1-26 and the binding at line 46); the uppercase
`CONTEXT` read at lines 173, 181 and 188 is not among them. -/
def assetPyResizeNames : List String :=
  ["math", "BytesIO", "Image", "resizeimage", "optimize_webp", "WebpMedium",
   "logger", "Context", "stream_file", "context", "SUPPORTED_IMAGE_MIME_TYPES",
   "WEBP_OPTIONS"]

/-- Output dimensions of the transcoded image with pixel budget `B` for an
input of size `W × H`. -/
def transcodeDims (B W H : Nat) : Nat × Nat :=
  if W * H ≤ B then (W, H)
  else (Nat.sqrt (B * W * H) / H, Nat.sqrt (B * H * W) / W)

theorem transcode_product_le (B W H : Nat) (hW : 0 < W) (hH : 0 < H) :
    (Nat.sqrt (B * W * H) / H) * (Nat.sqrt (B * H * W) / W) ≤ B := by
  have hHW : 0 < H * W := Nat.mul_pos hH hW
  have hcomm : B * H * W = B * W * H := by ring
  rw [hcomm]
  set s := Nat.sqrt (B * W * H) with hs
  have hle : s / H * (s / W) * (H * W) ≤ B * W * H := by
    have h1 : s / H * H ≤ s := Nat.div_mul_le_self s H
    have h2 : s / W * W ≤ s := Nat.div_mul_le_self s W
    have h3 : s / H * (s / W) * (H * W) = (s / H * H) * (s / W * W) := by ring
    rw [h3]
    exact le_trans (Nat.mul_le_mul h1 h2) (Nat.sqrt_le (B * W * H))
  have hdiv : s / H * (s / W) ≤ B * W * H / (H * W) :=
    (Nat.le_div_iff_mul_le hHW).mpr hle
  have hq : B * W * H / (H * W) = B := by
    have : B * W * H = B * (H * W) := by ring
    rw [this]
    exact Nat.mul_div_cancel B hHW
  rw [hq] at hdiv
  exact hdiv

theorem transcode_width_le (B W H : Nat) (hH : 0 < H) (hB : B ≤ W * H) :
    Nat.sqrt (B * W * H) / H ≤ W := by
  have h1 : B * W * H ≤ (W * H) * (W * H) := by
    have hx : B * (W * H) ≤ (W * H) * (W * H) := Nat.mul_le_mul_right _ hB
    have hy : B * W * H = B * (W * H) := by ring
    omega
  have h2 : Nat.sqrt (B * W * H) ≤ W * H := by
    have h3 := Nat.sqrt_le_sqrt h1
    rwa [Nat.sqrt_eq (W * H)] at h3
  have h3 : Nat.sqrt (B * W * H) / H ≤ W * H / H := Nat.div_le_div_right h2
  have h4 : W * H / H = W := by
    rw [Nat.mul_comm]
    exact Nat.mul_div_cancel_left W hH
  omega

/-- Name resolution followed by the optimization step of
`_get_image_content` (asset.py lines 170-195): the budget comparison reads
the name `CONTEXT` first; since asset.py does not bind it, the step raises
`NameError` for every image, before the comparison.  `B` is the value
`CONTEXT.maximum_image_pixels` would have had the name resolved. -/
def getImageContentDims (B W H : Nat) : Except String (Nat × Nat) :=
  if "CONTEXT" ∈ assetPyResizeNames then Except.ok (transcodeDims B W H)
  else Except.error "NameError: name CONTEXT is not defined"

/-- C7 (code bug): the resize code of `_get_image_content` reads the unbound
module name `CONTEXT` (asset.py binds only `Context` and lowercase
`context`), so every execution raises `NameError` before the budget
comparison and the claimed behavior never runs.  The intended computation —
which the claim and the spec describe, and which the rest of the module's
lowercase `context` accesses show was meant — does satisfy the claim: with
positive dimensions, an image within budget keeps its original size, and an
image over budget gets exactly the `int(sqrt(B*W/H))` by `int(sqrt(B*H/W))`
dimensions, whose product is within the budget and which do not exceed the
original (a downscale preserving the aspect ratio up to rounding). -/
theorem c7_image_budget_name_error (B W H : Nat) (hW : 0 < W) (hH : 0 < H) :
    getImageContentDims B W H
        = Except.error "NameError: name CONTEXT is not defined"
    ∧ (W * H ≤ B → transcodeDims B W H = (W, H))
    ∧ (B < W * H →
        transcodeDims B W H
          = (Nat.sqrt (B * W * H) / H, Nat.sqrt (B * H * W) / W)
        ∧ (transcodeDims B W H).1 * (transcodeDims B W H).2 ≤ B
        ∧ (transcodeDims B W H).1 ≤ W
        ∧ (transcodeDims B W H).2 ≤ H) := by
  refine ⟨by unfold getImageContentDims; rw [if_neg (by decide)], ?_, ?_⟩
  · intro h
    unfold transcodeDims
    rw [if_pos h]
  · intro h
    have hnot : ¬ W * H ≤ B := by omega
    have heq : transcodeDims B W H
        = (Nat.sqrt (B * W * H) / H, Nat.sqrt (B * H * W) / W) := by
      unfold transcodeDims
      rw [if_neg hnot]
    refine ⟨heq, ?_, ?_, ?_⟩
    · rw [heq]
      exact transcode_product_le B W H hW hH
    · rw [heq]
      exact transcode_width_le B W H hH (by omega)
    · rw [heq]
      have hswap : B ≤ H * W := by
        rw [Nat.mul_comm H W]
        omega
      exact transcode_width_le B H W hW hswap

/-- Witness for `c7_image_budget_name_error`: budget `4`: the step raises
the `NameError` for an `8 × 2` image; the intended computation would have
resized it to `4 × 1` (product `4 ≤ 4`) and kept a `2 × 2` image as is. -/
theorem c7_image_budget_name_error_witness :
    getImageContentDims 4 8 2
        = Except.error "NameError: name CONTEXT is not defined"
    ∧ transcodeDims 4 8 2 = (4, 1) ∧ transcodeDims 4 2 2 = (2, 2) := by
  have h64 : Nat.sqrt 64 = 8 := (Nat.eq_sqrt.mpr (by norm_num)).symm
  have h := c7_image_budget_name_error 4 8 2 (by norm_num) (by norm_num)
  have h2 := c7_image_budget_name_error 4 2 2 (by norm_num) (by norm_num)
  refine ⟨h.1, ?_, h2.2.1 (by norm_num)⟩
  rw [(h.2.2 (by norm_num)).1]
  norm_num [h64]

/-! ## Library page tree (`libretexts2zim/client.py`)

`LibraryPage` objects form an object graph: `children` owns forward
references, `parent` is a back reference.  The graph is modelled as an arena:
a list of page records (`PageStore`) indexed by object references (`Nat`),
as the defensive reachability code must be checked against arbitrary —
possibly cyclic or id-duplicating — object graphs.  `LibraryTree.pages` is a
Python dict `id → page` and is modelled as an insertion-ordered association
list. -/

/-- One `LibraryPage` object: `id`, `title`, `path`, `parent` back reference
(`None` for the root), owned `children` references. -/
structure LibraryPage where
  id : String
  title : String
  path : String
  parent : Option Nat
  children : List Nat
deriving DecidableEq, Repr

/-- The heap of page objects; a reference is an index into the list. -/
abbrev PageStore := List LibraryPage

/-- Dereferencing never fails in Python; out-of-range references (which the
client never creates) dereference to an inert placeholder page. -/
def defaultPage : LibraryPage := ⟨"", "", "", none, []⟩

def getPage (store : PageStore) (r : Nat) : LibraryPage :=
  store.getD r defaultPage

/-- `pages` dict lookup by page id. -/
def findRef (m : List (String × Nat)) (k : String) : Option Nat :=
  match m with
  | [] => none
  | (k', v) :: rest => if k' = k then some v else findRef rest k

/-- Python dict assignment `pages[k] = v`: update in place keeping the
original insertion position, append if the key is new. -/
def dictInsert (m : List (String × Nat)) (k : String) (v : Nat) :
    List (String × Nat) :=
  match m with
  | [] => [(k, v)]
  | (k', v') :: rest =>
    if k' = k then (k', v) :: rest else (k', v') :: dictInsert rest k v

/-- `LibraryTree`: root page reference plus the `id → page` dict. -/
structure LibraryTree where
  root : Nat
  pages : List (String × Nat)
deriving DecidableEq, Repr

/-- Ids that can ever be inserted by the `sub_tree` loop: the ids of the
store's pages, plus the placeholder's id for out-of-range references. -/
def subTreeUniverse (store : PageStore) : Finset String :=
  insert defaultPage.id (store.map (fun p => p.id)).toFinset

/-- Number of universe ids not yet present in the pages dict: the primary
component of the `sub_tree` loop termination measure. -/
def unseenCount (store : PageStore) (pages : List (String × Nat)) : Nat :=
  ((subTreeUniverse store).filter (fun i => findRef pages i = none)).card

theorem getPage_id_mem_universe (store : PageStore) (r : Nat) :
    (getPage store r).id ∈ subTreeUniverse store := by
  unfold getPage subTreeUniverse
  by_cases h : r < store.length
  · rw [List.getD_eq_getElem store defaultPage h]
    exact Finset.mem_insert_of_mem
      (List.mem_toFinset.mpr (List.mem_map_of_mem _ (store.getElem_mem h)))
  · rw [List.getD_eq_default store defaultPage (by omega)]
    exact Finset.mem_insert_self _ _

theorem findRef_append (m m' : List (String × Nat)) (k : String) :
    findRef (m ++ m') k
      = match findRef m k with
        | some v => some v
        | none => findRef m' k := by
  induction m with
  | nil => simp [findRef]
  | cons e rest ih =>
    obtain ⟨k', v'⟩ := e
    by_cases h : k' = k
    · simp [findRef, h]
    · simp [findRef, h, ih]

theorem unseenCount_append_lt (store : PageStore) (pages : List (String × Nat))
    (k : String) (v : Nat) (hk : k ∈ subTreeUniverse store)
    (hnone : findRef pages k = none) :
    unseenCount store (pages ++ [(k, v)]) < unseenCount store pages := by
  unfold unseenCount
  apply Finset.card_lt_card
  constructor
  · intro i hi
    rw [Finset.mem_filter] at hi ⊢
    refine ⟨hi.1, ?_⟩
    have h := hi.2
    rw [findRef_append] at h
    revert h
    cases hfi : findRef pages i with
    | none => intro _; rfl
    | some w => intro h; exact absurd h (by simp)
  · intro hsub
    have hk' : k ∈ (subTreeUniverse store).filter (fun i => findRef pages i = none) :=
      Finset.mem_filter.mpr ⟨hk, hnone⟩
    have hk2 := hsub hk'
    rw [Finset.mem_filter, findRef_append, hnone] at hk2
    simp [findRef] at hk2

/-- The `while children_to_explore` loop of `LibraryTree.sub_tree`
(client.py lines 77-84): pop the head, skip it if its id is already a key of
the dict (the safe-guard), otherwise append it to the dict and push its
children. -/
def subTreeGo (store : PageStore) (pages : List (String × Nat)) (queue : List Nat) :
    List (String × Nat) :=
  match queue with
  | [] => pages
  | c :: rest =>
    if (findRef pages (getPage store c).id).isSome then
      subTreeGo store pages rest
    else
      subTreeGo store (pages ++ [((getPage store c).id, c)])
        (rest ++ (getPage store c).children)
termination_by (unseenCount store pages, queue.length)
decreasing_by
  · apply Prod.Lex.right
    simp
  · apply Prod.Lex.left
    apply unseenCount_append_lt
    · exact getPage_id_mem_universe store c
    · rename_i hcond
      simp only [Option.isSome_iff_exists] at hcond
      push_neg at hcond
      cases hfind : findRef pages (getPage store c).id with
      | none => rfl
      | some w => exact absurd hfind (hcond w)

/-- Model of `LibraryTree.sub_tree` (client.py lines 72-85): look the sub-root
up in the pages dict (`KeyError`, modelled as `none`, if absent), seed the new
tree with it and run the exploration loop over its children. -/
def subTree (store : PageStore) (tree : LibraryTree) (subrootId : String) :
    Option LibraryTree :=
  match findRef tree.pages subrootId with
  | none => none
  | some r =>
    some ⟨r, subTreeGo store [((getPage store r).id, r)] (getPage store r).children⟩

/-- Reachability along `children` references, starting from (and including)
`r`. -/
inductive ReachableFrom (store : PageStore) (r : Nat) : Nat → Prop where
  | refl : ReachableFrom store r r
  | step {s t : Nat} : ReachableFrom store r s → t ∈ (getPage store s).children →
      ReachableFrom store r t

/-- Model of the `LibraryPage.self_and_parents` property (client.py lines
50-57): the page followed by its ancestors up to the parentless root.  The
Python `while` loop does not terminate on a cyclic parent chain; the model
adds explicit fuel, which every claim instantiates large enough to be
exact on the acyclic chains the client builds. -/
def selfAndParents (store : PageStore) : Nat → Nat → List Nat
  | 0, r => [r]
  | fuel + 1, r =>
    match (getPage store r).parent with
    | none => [r]
    | some p => r :: selfAndParents store fuel p

/-! ## Content filter (`mindtouch2zim/processor.py`, `ContentFilter.filter`)

The compiled regexes are kept abstract: a configured `page_title_include`
(resp. `page_title_exclude`) becomes a predicate on titles modelling
`re.search(...) is not None`; a configured `page_id_include` becomes the
stripped id list.  An unconfigured (empty / `None`) field is `none`. -/

structure ContentFilterM where
  titleInclude : Option (String → Bool)
  idInclude : Option (List String)
  titleExclude : Option (String → Bool)
  rootPageId : Option String

/-- Model of the nested `is_selected` (processor.py lines 110-125): the
configured conditions are combined conjunctively. -/
def isSelected (f : ContentFilterM) (p : LibraryPage) : Bool :=
  (match f.titleInclude with
   | none => true
   | some re => re p.title)
  && (match f.idInclude with
      | none => true
      | some l => p.id ∈ l)
  && (match f.titleExclude with
      | none => true
      | some re => !(re p.title))

/-- The set comprehension building `selected_ids` (processor.py lines
128-133): the ids of `self_and_parents` of every selected page. -/
def selectedIds (f : ContentFilterM) (store : PageStore) (tree : LibraryTree) :
    List String :=
  (((tree.pages.map Prod.snd).filter (fun r => isSelected f (getPage store r))).map
    (fun r => (selfAndParents store store.length r).map
      (fun s => (getPage store s).id))).flatten

/-- The final list comprehension of `ContentFilter.filter` (processor.py line
136): the pages of the dict, in insertion order, whose id is in
`selected_ids`. -/
def filterCore (f : ContentFilterM) (store : PageStore) (tree : LibraryTree) :
    List Nat :=
  (tree.pages.map Prod.snd).filter
    (fun r => decide ((getPage store r).id ∈ selectedIds f store tree))

/-- Model of `ContentFilter.filter` (processor.py lines 88-136): take the
sub-tree first when `root_page_id` is configured (`KeyError`, modelled
`none`, if it is not a known id), then select. -/
def filterPages (f : ContentFilterM) (store : PageStore) (tree : LibraryTree) :
    Option (List Nat) :=
  match f.rootPageId with
  | none => some (filterCore f store tree)
  | some rid =>
    match subTree store tree rid with
    | none => none
    | some t => some (filterCore f store t)

/-! ## Tree construction (`libretexts2zim/client.py`, `get_page_tree`)

The JSON tree API response is modelled as an inductive tree: a node's id,
title, path and its subpages.  (The JSON quirk distinguishing a single
subpage object from a list of them is flattened into the list.)
`get_page_tree` creates the root, then `_process_tree_data` walks the
response depth-first, `_add_page` creating each page with its `parent`
back reference, appending it to its parent's `children` and inserting it
into the `pages` dict. -/

inductive ApiPage where
  | mk (id title path : String) (subpages : List ApiPage)

/-- All ids occurring in an API response, root first, depth-first. -/
def apiIds : ApiPage → List String
  | ApiPage.mk i _ _ subs => i :: (subs.attach.map (fun s => apiIds s.1)).flatten
decreasing_by
  have h := List.sizeOf_lt_of_mem s.2
  simp only [ApiPage.mk.sizeOf_spec]
  omega

/-- `parent.children.append(page)` on the arena. -/
def appendChild (store : PageStore) (parentRef r : Nat) : PageStore :=
  store.set parentRef
    { getPage store parentRef with
      children := (getPage store parentRef).children ++ [r] }

mutual

/-- `_add_page` followed by the recursive `_process_tree_data` on the new
page (client.py lines 271-291). -/
def buildNode (a : ApiPage) (store : PageStore) (pages : List (String × Nat))
    (parentRef : Nat) : PageStore × List (String × Nat) :=
  match a with
  | ApiPage.mk i t pa subs =>
    let r := store.length
    let store1 := appendChild store parentRef r ++ [⟨i, t, pa, some parentRef, []⟩]
    let pages1 := dictInsert pages i r
    buildNodes subs store1 pages1 r

/-- The subpage loop of `_process_tree_data`. -/
def buildNodes (l : List ApiPage) (store : PageStore) (pages : List (String × Nat))
    (parentRef : Nat) : PageStore × List (String × Nat) :=
  match l with
  | [] => (store, pages)
  | a :: rest =>
    let sp := buildNode a store pages parentRef
    buildNodes rest sp.1 sp.2 parentRef

end

/-- Model of `LibreTextsClient.get_page_tree` (client.py lines 257-295):
create the root page (no parent), seed the `pages` dict with it, then add
the whole response below it.  Returns the object heap and the tree. -/
def getPageTree (api : ApiPage) : PageStore × LibraryTree :=
  match api with
  | ApiPage.mk i t pa subs =>
    let store0 : PageStore := [⟨i, t, pa, none, []⟩]
    let pages0 := dictInsert [] i 0
    let sp := buildNodes subs store0 pages0 0
    (sp.1, ⟨0, sp.2⟩)

theorem findRef_eq_none_iff (m : List (String × Nat)) (k : String) :
    findRef m k = none ↔ k ∉ m.map Prod.fst := by
  induction m with
  | nil => simp [findRef]
  | cons e rest ih =>
    obtain ⟨k', v⟩ := e
    by_cases h : k' = k
    · subst h
      simp [findRef]
    · simp [findRef, h, ih, Ne.symm h]

theorem findRef_some_mem (m : List (String × Nat)) (k : String) (v : Nat)
    (h : findRef m k = some v) : (k, v) ∈ m := by
  induction m with
  | nil => simp [findRef] at h
  | cons e rest ih =>
    obtain ⟨k', v'⟩ := e
    by_cases hk : k' = k
    · subst hk
      rw [findRef, if_pos rfl, Option.some.injEq] at h
      subst h
      exact List.mem_cons_self _ _
    · simp only [findRef, hk, if_false] at h
      exact List.mem_cons_of_mem _ (ih h)

theorem subTreeGo_append (store : PageStore) (pages : List (String × Nat))
    (queue : List Nat) :
    ∃ ext, subTreeGo store pages queue = pages ++ ext := by
  induction pages, queue using subTreeGo.induct store with
  | case1 pages => exact ⟨[], by simp [subTreeGo]⟩
  | case2 pages c rest hcond ih =>
    obtain ⟨ext, hext⟩ := ih
    refine ⟨ext, ?_⟩
    rw [subTreeGo, if_pos hcond]
    exact hext
  | case3 pages c rest hcond ih =>
    obtain ⟨ext, hext⟩ := ih
    refine ⟨[((getPage store c).id, c)] ++ ext, ?_⟩
    rw [subTreeGo, if_neg hcond, hext, List.append_assoc]

theorem subTreeGo_nodup_keys (store : PageStore) (pages : List (String × Nat))
    (queue : List Nat) (h : (pages.map Prod.fst).Nodup) :
    ((subTreeGo store pages queue).map Prod.fst).Nodup := by
  induction pages, queue using subTreeGo.induct store with
  | case1 pages => rw [subTreeGo]; exact h
  | case2 pages c rest hcond ih =>
    rw [subTreeGo, if_pos hcond]
    exact ih h
  | case3 pages c rest hcond ih =>
    rw [subTreeGo, if_neg hcond]
    apply ih
    rw [List.map_append, List.nodup_append]
    refine ⟨h, by simp, ?_⟩
    intro a ha hb
    simp only [List.map_cons, List.map_nil, List.mem_singleton] at hb
    subst hb
    have : findRef pages (getPage store c).id = none := by
      cases hfind : findRef pages (getPage store c).id with
      | none => rfl
      | some w => rw [hfind] at hcond; simp at hcond
    exact (findRef_eq_none_iff pages (getPage store c).id).mp this ha

theorem subTreeGo_entries (store : PageStore) (pages : List (String × Nat))
    (queue : List Nat) (h : ∀ e ∈ pages, e.1 = (getPage store e.2).id) :
    ∀ e ∈ subTreeGo store pages queue, e.1 = (getPage store e.2).id := by
  induction pages, queue using subTreeGo.induct store with
  | case1 pages => rw [subTreeGo]; exact h
  | case2 pages c rest hcond ih =>
    rw [subTreeGo, if_pos hcond]
    exact ih h
  | case3 pages c rest hcond ih =>
    rw [subTreeGo, if_neg hcond]
    apply ih
    intro e he
    rcases List.mem_append.mp he with he | he
    · exact h e he
    · simp only [List.mem_singleton] at he
      subst he
      rfl

theorem subTreeGo_sound (store : PageStore) (P : Nat → Prop)
    (hP : ∀ s t, P s → t ∈ (getPage store s).children → P t)
    (pages : List (String × Nat)) (queue : List Nat)
    (hp : ∀ e ∈ pages, P e.2) (hq : ∀ c ∈ queue, P c) :
    ∀ e ∈ subTreeGo store pages queue, P e.2 := by
  induction pages, queue using subTreeGo.induct store with
  | case1 pages => rw [subTreeGo]; exact hp
  | case2 pages c rest hcond ih =>
    rw [subTreeGo, if_pos hcond]
    exact ih hp (fun x hx => hq x (List.mem_cons_of_mem _ hx))
  | case3 pages c rest hcond ih =>
    rw [subTreeGo, if_neg hcond]
    apply ih
    · intro e he
      rcases List.mem_append.mp he with he | he
      · exact hp e he
      · simp only [List.mem_singleton] at he
        subst he
        exact hq c (List.mem_cons_self _ _)
    · intro x hx
      rcases List.mem_append.mp hx with hx | hx
      · exact hq x (List.mem_cons_of_mem _ hx)
      · exact hP c x (hq c (List.mem_cons_self _ _)) hx

theorem subTreeGo_closed (store : PageStore)
    (hclosed : ∀ s, s < store.length → ∀ t ∈ (getPage store s).children, t < store.length)
    (hinj : ∀ s, s < store.length → ∀ t, t < store.length →
        (getPage store s).id = (getPage store t).id → s = t)
    (pages : List (String × Nat)) (queue : List Nat)
    (hpr : ∀ e ∈ pages, e.2 < store.length)
    (hqr : ∀ c ∈ queue, c < store.length)
    (hent : ∀ e ∈ pages, e.1 = (getPage store e.2).id)
    (hinv : ∀ v ∈ pages.map Prod.snd, ∀ t ∈ (getPage store v).children,
        t ∈ pages.map Prod.snd ∨ t ∈ queue) :
    ∀ v ∈ (subTreeGo store pages queue).map Prod.snd,
      ∀ t ∈ (getPage store v).children,
        t ∈ (subTreeGo store pages queue).map Prod.snd := by
  induction pages, queue using subTreeGo.induct store with
  | case1 pages =>
    rw [subTreeGo]
    intro v hv t ht
    rcases hinv v hv t ht with h | h
    · exact h
    · simp at h
  | case2 pages c rest hcond ih =>
    rw [subTreeGo, if_pos hcond]
    apply ih hpr (fun x hx => hqr x (List.mem_cons_of_mem _ hx)) hent
    intro v hv t ht
    rcases hinv v hv t ht with h | h
    · exact Or.inl h
    · rcases List.mem_cons.mp h with htc | h
      · left
        rw [htc]
        obtain ⟨w, hw⟩ := Option.isSome_iff_exists.mp hcond
        have hmem := findRef_some_mem _ _ _ hw
        have hidw : (getPage store c).id = (getPage store w).id := hent _ hmem
        have hwlen : w < store.length := hpr _ hmem
        have hclen : c < store.length := hqr c (List.mem_cons_self _ _)
        have hwc : w = c := hinj w hwlen c hclen hidw.symm
        rw [← hwc]
        exact List.mem_map_of_mem Prod.snd hmem
      · exact Or.inr h
  | case3 pages c rest hcond ih =>
    rw [subTreeGo, if_neg hcond]
    have hclen : c < store.length := hqr c (List.mem_cons_self _ _)
    apply ih
    · intro e he
      rcases List.mem_append.mp he with he | he
      · exact hpr e he
      · simp only [List.mem_singleton] at he
        subst he
        exact hclen
    · intro x hx
      rcases List.mem_append.mp hx with hx | hx
      · exact hqr x (List.mem_cons_of_mem _ hx)
      · exact hclosed c hclen x hx
    · intro e he
      rcases List.mem_append.mp he with he | he
      · exact hent e he
      · simp only [List.mem_singleton] at he
        subst he
        rfl
    · intro v hv t ht
      rw [List.map_append, List.mem_append] at hv
      rcases hv with hv | hv
      · rcases hinv v hv t ht with h | h
        · left
          rw [List.map_append, List.mem_append]
          exact Or.inl h
        · rcases List.mem_cons.mp h with rfl | h
          · left
            rw [List.map_append, List.mem_append]
            right
            simp
          · exact Or.inr (List.mem_append.mpr (Or.inl h))
      · simp only [List.map_cons, List.map_nil, List.mem_singleton] at hv
        subst hv
        exact Or.inr (List.mem_append.mpr (Or.inr ht))

/-- C6: for every object graph and tree whose pages dict contains
`subrootId` at object `r` (with the graph's references in range and distinct
page ids — as produced by a well-formed API response), `sub_tree` returns a
tree whose pages dict has no duplicate keys, each entry keyed by its page's
id, and whose pages are exactly the set of pages reachable from `r` via
`children` links; the function is total (the id-based visited safeguard
terminates the loop even on cyclic graphs). -/
theorem c6_sub_tree_reachability (store : PageStore) (tree : LibraryTree)
    (subrootId : String) (r : Nat)
    (hfind : findRef tree.pages subrootId = some r)
    (hr : r < store.length)
    (hclosed : ∀ s, s < store.length → ∀ t ∈ (getPage store s).children,
        t < store.length)
    (hinj : ∀ s, s < store.length → ∀ t, t < store.length →
        (getPage store s).id = (getPage store t).id → s = t) :
    ∃ res, subTree store tree subrootId = some res
      ∧ res.root = r
      ∧ ((res.pages.map Prod.fst).Nodup)
      ∧ (∀ e ∈ res.pages, e.1 = (getPage store e.2).id)
      ∧ (∀ v, v ∈ res.pages.map Prod.snd ↔ ReachableFrom store r v) := by
  refine ⟨⟨r, subTreeGo store [((getPage store r).id, r)] (getPage store r).children⟩,
    ?_, rfl, ?_, ?_, ?_⟩
  · unfold subTree
    rw [hfind]
  · exact subTreeGo_nodup_keys store _ _ (by simp)
  · exact subTreeGo_entries store _ _ (by simp)
  · intro v
    constructor
    · intro hv
      rw [List.mem_map] at hv
      obtain ⟨e, he, rfl⟩ := hv
      exact subTreeGo_sound store (ReachableFrom store r)
        (fun s t hs ht => ReachableFrom.step hs ht) _ _
        (by
          intro e' he'
          simp only [List.mem_singleton] at he'
          subst he'
          exact ReachableFrom.refl)
        (fun c hc => ReachableFrom.step ReachableFrom.refl hc) e he
    · intro hreach
      have hclo := subTreeGo_closed store hclosed hinj
        [((getPage store r).id, r)] (getPage store r).children
        (by simp [hr])
        (hclosed r hr)
        (by simp)
        (by
          intro v' hv' t ht
          simp only [List.map_cons, List.map_nil, List.mem_singleton] at hv'
          subst hv'
          exact Or.inr ht)
      induction hreach with
      | refl =>
        obtain ⟨ext, hext⟩ := subTreeGo_append store
          [((getPage store r).id, r)] (getPage store r).children
        rw [hext]
        simp
      | step hs ht ihs =>
        exact hclo _ ihs _ ht

/-- Store for the `c6_sub_tree_reachability` witness: a cyclic object graph
(`a`'s children contain `b`, `b`'s children contain `a`). -/
def exC6CycleStore : PageStore :=
  [⟨"a", "", "", none, [1]⟩, ⟨"b", "", "", some 0, [0]⟩]

def exC6CycleTree : LibraryTree := ⟨0, [("a", 0), ("b", 1)]⟩

/-- Witness for `c6_sub_tree_reachability` on the cyclic two-page graph: the
loop terminates, both pages are in the sub-tree, and the key list is
duplicate-free. -/
theorem c6_sub_tree_reachability_witness :
    ReachableFrom exC6CycleStore 0 1
    ∧ (([("a", 0), ("b", 1)] : List (String × Nat)).map Prod.fst).Nodup := by
  obtain ⟨res, h1, h2, h3, h4, h5⟩ :=
    c6_sub_tree_reachability exC6CycleStore exC6CycleTree "a" 0
      (by decide) (by decide) (by decide) (by decide)
  have heval : subTree exC6CycleStore exC6CycleTree "a"
      = some ⟨0, [("a", 0), ("b", 1)]⟩ := by
    simp [subTree, subTreeGo, findRef, getPage, exC6CycleStore, exC6CycleTree,
      defaultPage]
  rw [heval] at h1
  have hres : res = ⟨0, [("a", 0), ("b", 1)]⟩ := by
    injection h1 with h1'
    exact h1'.symm
  subst hres
  exact ⟨(h5 1).mp (by decide), h3⟩

/-- Object graph with a repeated id: the root's two children both have id
`"x"`; the second one (object 2) has a child with id `"y"` (object 3). -/
def exC6DupStore : PageStore :=
  [⟨"r", "", "", none, [1, 2]⟩, ⟨"x", "", "", some 0, []⟩,
   ⟨"x", "", "", some 0, [3]⟩, ⟨"y", "", "", some 2, []⟩]

/-- C6 (counterexample to the claim as stated): with repeated ids the pages
map of `sub_tree` is NOT exactly the reachable set: object 2 (the second
page with id `"x"`) is skipped by the id-based safeguard, so its child,
object 3 (id `"y"`), is reachable from the sub-root via children links but
absent from `sub_tree(id).pages`. -/
theorem c6_repeated_ids_counterexample :
    subTree exC6DupStore ⟨0, [("r", 0)]⟩ "r" = some ⟨0, [("r", 0), ("x", 1)]⟩
    ∧ ReachableFrom exC6DupStore 0 3
    ∧ 3 ∉ ([("r", 0), ("x", 1)] : List (String × Nat)).map Prod.snd := by
  refine ⟨?_, ?_, by decide⟩
  · simp [subTree, subTreeGo, findRef, getPage, exC6DupStore, defaultPage]
  · exact @ReachableFrom.step exC6DupStore 0 2 3
      (@ReachableFrom.step exC6DupStore 0 0 2 ReachableFrom.refl (by decide))
      (by decide)

/-- Store for the C4 example: root (title `Root`) with children `A` (id `a`)
and `B` (id `b`). -/
def exC4Store : PageStore :=
  [⟨"r", "Root", "path-r", none, [1, 2]⟩,
   ⟨"a", "A", "path-a", some 0, []⟩,
   ⟨"b", "B", "path-b", some 0, []⟩]

def exC4Tree : LibraryTree := ⟨0, [("r", 0), ("a", 1), ("b", 2)]⟩

/-- Both an include-title regex (modelled by the predicate matching exactly
`A`) and an id-include list (`["b"]`) are configured; no exclude regex. -/
def exC4Filter : ContentFilterM :=
  ⟨some (fun t => t = "A"), some ["b"], none, none⟩

/-- C4 (counterexample to the claim as stated): with both `R1` (title `A`)
and `L` (`["b"]`) configured, page 1 (title `A`, id `a`) matches `R1`, hence
matches `(R1 or in L)` and no exclude regex is configured — the claim says
page 1 is selected.  But the code combines the include conditions
conjunctively (`title matches R1 AND id in L`), so the filter returns the
empty list and page 1 is not selected. -/
theorem c4_filter_counterexample :
    filterPages exC4Filter exC4Store exC4Tree = some []
    ∧ ((getPage exC4Store 1).title = "A" ∨ (getPage exC4Store 1).id ∈ ["b"])
    ∧ 1 ∈ exC4Tree.pages.map Prod.snd
    ∧ 1 ∉ ([] : List Nat) := by
  refine ⟨by decide, Or.inl (by decide), by decide, by decide⟩

theorem mem_filterCore_iff (f : ContentFilterM) (store : PageStore)
    (tree : LibraryTree) (r : Nat) :
    r ∈ filterCore f store tree
      ↔ r ∈ tree.pages.map Prod.snd
        ∧ ∃ q ∈ tree.pages.map Prod.snd, isSelected f (getPage store q) = true
          ∧ (getPage store r).id
              ∈ (selfAndParents store store.length q).map
                  (fun s => (getPage store s).id) := by
  unfold filterCore selectedIds
  rw [List.mem_filter]
  simp only [decide_eq_true_eq, List.mem_flatten]
  constructor
  · rintro ⟨hr, l, hl, hid⟩
    obtain ⟨q, hqf, rfl⟩ := List.mem_map.mp hl
    rw [List.mem_filter] at hqf
    exact ⟨hr, q, hqf.1, hqf.2, hid⟩
  · rintro ⟨hr, q, hq, hsel, hid⟩
    exact ⟨hr, _, List.mem_map.mpr ⟨q, List.mem_filter.mpr ⟨hq, hsel⟩, rfl⟩, hid⟩

/-- C4 (amended): with `root_page_id` unset, `filter` returns exactly the
pages (in pages-dict order) whose id is the id of some member of
`self_and_parents(q)` for a page `q` that satisfies ALL configured include
conditions conjunctively — title matches `R1` (when configured) AND id is in
`L` (when configured) — and does not match `R2`; consequently, whenever the
returned selection is non-empty and the root is an ancestor-or-self of every
page, the tree's root is in the selection. -/
theorem c4_content_filter (f : ContentFilterM) (store : PageStore)
    (tree : LibraryTree) (hroot : f.rootPageId = none) :
    filterPages f store tree = some (filterCore f store tree)
    ∧ (∀ r, r ∈ filterCore f store tree
        ↔ r ∈ tree.pages.map Prod.snd
          ∧ ∃ q ∈ tree.pages.map Prod.snd, isSelected f (getPage store q) = true
            ∧ (getPage store r).id
                ∈ (selfAndParents store store.length q).map
                    (fun s => (getPage store s).id))
    ∧ (∀ p, isSelected f p = true
        ↔ ((∀ re, f.titleInclude = some re → re p.title = true)
            ∧ (∀ l, f.idInclude = some l → p.id ∈ l)
            ∧ (∀ re, f.titleExclude = some re → re p.title = false)))
    ∧ (tree.root ∈ tree.pages.map Prod.snd →
        (∀ q ∈ tree.pages.map Prod.snd,
          (getPage store tree.root).id
            ∈ (selfAndParents store store.length q).map
                (fun s => (getPage store s).id)) →
        filterCore f store tree ≠ [] →
        tree.root ∈ filterCore f store tree) := by
  have hchar := mem_filterCore_iff f store tree
  refine ⟨by unfold filterPages; rw [hroot], hchar, ?_, ?_⟩
  · intro p
    unfold isSelected
    cases hti : f.titleInclude with
    | none =>
      cases hii : f.idInclude with
      | none =>
        cases hte : f.titleExclude with
        | none => simp
        | some re => simp
      | some l =>
        cases hte : f.titleExclude with
        | none => simp [Bool.and_eq_true, Bool.not_eq_true', and_assoc]
        | some re => simp [Bool.and_eq_true, Bool.not_eq_true', and_assoc]
    | some re1 =>
      cases hii : f.idInclude with
      | none =>
        cases hte : f.titleExclude with
        | none => simp [Bool.and_eq_true, Bool.not_eq_true', and_assoc]
        | some re => simp [Bool.and_eq_true, Bool.not_eq_true', and_assoc]
      | some l =>
        cases hte : f.titleExclude with
        | none => simp [Bool.and_eq_true, Bool.not_eq_true', and_assoc]
        | some re => simp [Bool.and_eq_true, Bool.not_eq_true', and_assoc]
  · intro hrootmem hanc hne
    obtain ⟨r, hr⟩ := List.exists_mem_of_ne_nil _ hne
    obtain ⟨-, q, hq, hsel, -⟩ := (hchar r).mp hr
    exact (hchar tree.root).mpr ⟨hrootmem, q, hq, hsel, hanc q hq⟩

/-- Include-title only (`A`), nothing else configured. -/
def exC4FilterTitleOnly : ContentFilterM :=
  ⟨some (fun t => t = "A"), none, none, none⟩

/-- Witness for `c4_content_filter`: with only the include-title regex `A`
configured, the selection on the example tree is non-empty, so the root is
selected (together with page `A`). -/
theorem c4_content_filter_witness :
    0 ∈ filterCore exC4FilterTitleOnly exC4Store exC4Tree
    ∧ 1 ∈ filterCore exC4FilterTitleOnly exC4Store exC4Tree := by
  have h := c4_content_filter exC4FilterTitleOnly exC4Store exC4Tree rfl
  refine ⟨h.2.2.2 (by decide) (by decide) (by decide), ?_⟩
  exact (h.2.1 1).mpr ⟨by decide, 1, by decide, by decide, by decide⟩

/-! ## `content/shared.json` (`mindtouch2zim/ui.py` and `Processor.run`)

`ui.py` declares (camelCase aliases generated by `to_camel`):
`SharedModel(logo_path, root_page_path, pages, js_paths)` — four required
fields, serialised as `logoPath`, `rootPagePath`, `pages`, `jsPaths`.
`Processor.run` (processor.py lines 375-386) constructs
`SharedModel(logo_path=..., root_page_path=..., pages=[...])` WITHOUT
`js_paths`; pydantic raises a `ValidationError` for a missing required
field, so the run aborts before the archive entry is written. -/

/-- The `SharedModel` pydantic model of ui.py: all four fields required.
A page entry is `(id, title, path)`. -/
structure SharedModel where
  logo_path : String
  root_page_path : String
  pages : List (String × String × String)
  js_paths : List String
deriving DecidableEq, Repr

/-- The JSON keys of a serialised `SharedModel` (`to_camel` aliases),
in declaration order. -/
def sharedModelJsonKeys : List String :=
  ["logoPath", "rootPagePath", "pages", "jsPaths"]

/-- Pydantic model construction from the keyword arguments supplied at a
call site: any required field not supplied raises a `ValidationError`. -/
def mkSharedModel (logo root : Option String)
    (pages : Option (List (String × String × String)))
    (js : Option (List String)) : Except String SharedModel :=
  match logo, root, pages, js with
  | some l, some r, some p, some j => Except.ok ⟨l, r, p, j⟩
  | _, _, _, _ => Except.error "ValidationError: missing required field"

/-- The `SharedModel(...)` call in `Processor.run` (processor.py lines
378-385): `logo_path`, `root_page_path` and `pages` are passed, `js_paths`
is not. -/
def runSharedJsonStep (logoPath rootPagePath : String)
    (pages : List (String × String × String)) : Except String SharedModel :=
  mkSharedModel (some logoPath) (some rootPagePath) (some pages) none

/-- C9 (code bug): the `SharedModel` call in `Processor.run` omits the
required `js_paths` field declared in ui.py, so for every input the
construction raises a `ValidationError` and no run reaches the point of
writing `content/shared.json`; had the model been constructible, its JSON
keys would be exactly the claimed camelCase keys (in declaration order
`logoPath`, `rootPagePath`, `pages`, `jsPaths`). -/
theorem c9_shared_json_missing_js_paths (logoPath rootPagePath : String)
    (pages : List (String × String × String)) :
    runSharedJsonStep logoPath rootPagePath pages
      = Except.error "ValidationError: missing required field"
    ∧ sharedModelJsonKeys = ["logoPath", "rootPagePath", "pages", "jsPaths"] :=
  ⟨rfl, rfl⟩

theorem length_appendChild (store : PageStore) (parentRef r : Nat) :
    (appendChild store parentRef r).length = store.length := by
  unfold appendChild
  exact List.length_set store _ _

theorem getPage_appendChild_ne (store : PageStore) (parentRef r x : Nat)
    (hx : x ≠ parentRef) :
    getPage (appendChild store parentRef r) x = getPage store x := by
  unfold getPage appendChild List.getD
  rw [List.get?_eq_getElem?, List.get?_eq_getElem?, List.getElem?_set_ne (Ne.symm hx)]

theorem getPage_appendChild_self (store : PageStore) (parentRef r : Nat)
    (hpr : parentRef < store.length) :
    getPage (appendChild store parentRef r) parentRef
      = { getPage store parentRef with
          children := (getPage store parentRef).children ++ [r] } := by
  unfold getPage appendChild List.getD
  rw [List.get?_eq_getElem?, List.getElem?_set_self hpr]
  rfl

theorem getPage_append_left (store ext : PageStore) (x : Nat)
    (hx : x < store.length) :
    getPage (store ++ ext) x = getPage store x := by
  unfold getPage List.getD
  rw [List.get?_eq_getElem?, List.get?_eq_getElem?, List.getElem?_append, if_pos hx]

theorem getPage_append_new (store : PageStore) (p : LibraryPage) :
    getPage (store ++ [p]) store.length = p := by
  unfold getPage List.getD
  rw [List.get?_eq_getElem?, List.getElem?_concat_length store p]
  rfl

theorem getPage_append_big (store ext : PageStore) (x : Nat)
    (hx : store.length ≤ x) :
    getPage (store ++ ext) x = getPage ext (x - store.length) := by
  unfold getPage List.getD
  rw [List.get?_eq_getElem?, List.get?_eq_getElem?, List.getElem?_append, if_neg (by omega)]

theorem getPage_out (store : PageStore) (x : Nat) (hx : store.length ≤ x) :
    getPage store x = defaultPage := by
  unfold getPage List.getD
  rw [List.get?_eq_getElem?, List.getElem?_eq_none hx]
  rfl

theorem apiIds_mk (i t pa : String) (subs : List ApiPage) :
    apiIds (ApiPage.mk i t pa subs) = i :: (subs.map apiIds).flatten := by
  rw [apiIds]
  simp [List.map_attach]

theorem dictInsert_not_mem (m : List (String × Nat)) (k : String) (v : Nat)
    (h : k ∉ m.map Prod.fst) : dictInsert m k v = m ++ [(k, v)] := by
  induction m with
  | nil => rfl
  | cons e rest ih =>
    obtain ⟨k', v'⟩ := e
    simp only [List.map_cons, List.mem_cons] at h
    push_neg at h
    simp only [dictInsert, Ne.symm h.1, if_false, List.cons_append]
    rw [ih h.2]

theorem mem_snd_dictInsert (m : List (String × Nat)) (k : String) (v v' : Nat)
    (h : v' ∈ (dictInsert m k v).map Prod.snd) :
    v' ∈ m.map Prod.snd ∨ v' = v := by
  induction m with
  | nil =>
    simp [dictInsert] at h
    exact Or.inr h
  | cons e rest ih =>
    obtain ⟨k', w⟩ := e
    by_cases hk : k' = k
    · rw [show dictInsert ((k', w) :: rest) k v = (k', v) :: rest from by
        simp only [dictInsert, if_pos hk]] at h
      rw [List.map_cons, List.mem_cons] at h
      rcases h with h | h
      · exact Or.inr h
      · exact Or.inl (by rw [List.map_cons]; exact List.mem_cons_of_mem _ h)
    · rw [show dictInsert ((k', w) :: rest) k v = (k', w) :: dictInsert rest k v from by
        simp only [dictInsert, if_neg hk]] at h
      rw [List.map_cons, List.mem_cons] at h
      rcases h with h | h
      · exact Or.inl (by rw [List.map_cons]; exact List.mem_cons.mpr (Or.inl h))
      · rcases ih h with h2 | h2
        · exact Or.inl (by rw [List.map_cons]; exact List.mem_cons_of_mem _ h2)
        · exact Or.inr h2

theorem getPage_append_at (A : PageStore) (p : LibraryPage) (x : Nat)
    (hx : x = A.length) : getPage (A ++ [p]) x = p := by
  subst hx
  exact getPage_append_new A p

/-- Structural invariants of the object heap maintained by `get_page_tree`:
the heap is non-empty, object 0 (the root) is parentless, every other object
has a parent created before it, and `children`/`parent` references are
coherent and in range. -/
structure StoreInv (store : PageStore) : Prop where
  posLen : 0 < store.length
  rootParent : (getPage store 0).parent = none
  parentLt : ∀ r, 0 < r → r < store.length →
      ∃ p, (getPage store r).parent = some p ∧ p < r
  childCoh : ∀ s, s < store.length → ∀ t ∈ (getPage store s).children,
      t < store.length ∧ (getPage store t).parent = some s

/-- The `LibraryPage` object `_add_page` creates. -/
def newPage (i t pa : String) (pr : Nat) : LibraryPage := ⟨i, t, pa, some pr, []⟩

theorem storeInv_step (store : PageStore) (pr : Nat) (i t pa : String)
    (hinv : StoreInv store) (hpr : pr < store.length) :
    StoreInv (appendChild store pr store.length ++ [newPage i t pa pr])
    ∧ (appendChild store pr store.length ++ [newPage i t pa pr]).length
        = store.length + 1 := by
  set store2 := appendChild store pr store.length ++ [newPage i t pa pr] with hs2
  have hlen : store2.length = store.length + 1 := by
    rw [hs2, List.length_append, length_appendChild]
    rfl
  have hgp : ∀ x, getPage store2 x
      = if x = pr then
          { getPage store pr with
            children := (getPage store pr).children ++ [store.length] }
        else if x = store.length then newPage i t pa pr
        else getPage store x := by
    intro x
    by_cases hx : x = pr
    · subst hx
      rw [if_pos rfl, hs2, getPage_append_left _ _ _ (by rw [length_appendChild]; omega),
        getPage_appendChild_self store x store.length hpr]
    · rw [if_neg hx]
      by_cases hxl : x = store.length
      · subst hxl
        rw [if_pos rfl, hs2]
        exact getPage_append_at _ _ _ (by rw [length_appendChild])
      · rw [if_neg hxl]
        by_cases hlt : x < store.length
        · rw [hs2, getPage_append_left _ _ _ (by rw [length_appendChild]; omega),
            getPage_appendChild_ne store pr store.length x hx]
        · rw [getPage_out store x (by omega), getPage_out store2 x (by omega)]
  refine ⟨⟨?_, ?_, ?_, ?_⟩, hlen⟩
  · omega
  · rw [hgp 0]
    by_cases h0 : (0 : Nat) = pr
    · rw [if_pos h0]
      show (getPage store pr).parent = none
      rw [← h0]
      exact hinv.rootParent
    · rw [if_neg h0, if_neg (by omega)]
      exact hinv.rootParent
  · intro r hr0 hrlen
    rw [hgp r]
    by_cases hx : r = pr
    · subst hx
      rw [if_pos rfl]
      obtain ⟨p, hp, hplt⟩ := hinv.parentLt r hr0 hpr
      exact ⟨p, hp, hplt⟩
    · rw [if_neg hx]
      by_cases hxl : r = store.length
      · rw [if_pos hxl]
        refine ⟨pr, rfl, by omega⟩
      · rw [if_neg hxl]
        exact hinv.parentLt r hr0 (by rw [hlen] at hrlen; omega)
  · intro s hs tc htc
    rw [hgp s] at htc
    by_cases hx : s = pr
    · subst hx
      rw [if_pos rfl] at htc
      change tc ∈ (getPage store s).children ++ [store.length] at htc
      rw [List.mem_append, List.mem_singleton] at htc
      rcases htc with htc | htc
      · obtain ⟨h1, h2⟩ := hinv.childCoh s hpr tc htc
        refine ⟨by omega, ?_⟩
        rw [hgp tc]
        by_cases htcp : tc = s
        · subst htcp
          rw [if_pos rfl]
          show (getPage store tc).parent = some tc
          exact h2
        · rw [if_neg htcp, if_neg (by omega)]
          exact h2
      · subst htc
        refine ⟨by omega, ?_⟩
        rw [hgp store.length]
        by_cases hsl : store.length = s
        · omega
        · rw [if_neg hsl, if_pos rfl]
          rfl
    · rw [if_neg hx] at htc
      by_cases hxl : s = store.length
      · rw [if_pos hxl] at htc
        simp [newPage] at htc
      · rw [if_neg hxl] at htc
        have hslen : s < store.length := by rw [hlen] at hs; omega
        obtain ⟨h1, h2⟩ := hinv.childCoh s hslen tc htc
        refine ⟨by omega, ?_⟩
        rw [hgp tc]
        by_cases htp : tc = pr
        · subst htp
          rw [if_pos rfl]
          show (getPage store tc).parent = some s
          exact h2
        · rw [if_neg htp, if_neg (by omega)]
          exact h2

mutual

theorem buildNode_spec (a : ApiPage) (store : PageStore) (pages : List (String × Nat))
    (pr : Nat) (hinv : StoreInv store) (hpr : pr < store.length)
    (hval : ∀ v ∈ pages.map Prod.snd, v < store.length) :
    StoreInv (buildNode a store pages pr).1
    ∧ store.length ≤ (buildNode a store pages pr).1.length
    ∧ (∀ v ∈ (buildNode a store pages pr).2.map Prod.snd,
        v < (buildNode a store pages pr).1.length)
    ∧ ((apiIds a).Nodup → (∀ k ∈ apiIds a, k ∉ pages.map Prod.fst) →
        ∃ ext, (buildNode a store pages pr).2 = pages ++ ext
          ∧ ∀ k ∈ ext.map Prod.fst, k ∈ apiIds a) := by
  match a with
  | ApiPage.mk i t pa subs =>
    have hstep := storeInv_step store pr i t pa hinv hpr
    have hbn : buildNode (ApiPage.mk i t pa subs) store pages pr
        = buildNodes subs (appendChild store pr store.length ++ [newPage i t pa pr])
            (dictInsert pages i store.length) store.length := rfl
    have hval2 : ∀ v ∈ (dictInsert pages i store.length).map Prod.snd,
        v < (appendChild store pr store.length ++ [newPage i t pa pr]).length := by
      intro v hv
      rw [hstep.2]
      rcases mem_snd_dictInsert pages i store.length v hv with h | h
      · have := hval v h
        omega
      · omega
    have hrec := buildNodes_spec subs
      (appendChild store pr store.length ++ [newPage i t pa pr])
      (dictInsert pages i store.length) store.length hstep.1
      (by rw [hstep.2]; omega) hval2
    rw [hbn]
    refine ⟨hrec.1, ?_, hrec.2.2.1, ?_⟩
    · have h1 := hrec.2.1
      rw [hstep.2] at h1
      omega
    · intro hnd hdisj
      rw [apiIds_mk] at hnd hdisj
      have hflat_nd : ((subs.map apiIds).flatten).Nodup := (List.nodup_cons.mp hnd).2
      have hi_nin : i ∉ (subs.map apiIds).flatten := (List.nodup_cons.mp hnd).1
      have hins : dictInsert pages i store.length = pages ++ [(i, store.length)] :=
        dictInsert_not_mem pages i store.length (hdisj i (List.mem_cons_self _ _))
      have hdisj2 : ∀ k ∈ (subs.map apiIds).flatten,
          k ∉ (dictInsert pages i store.length).map Prod.fst := by
        intro k hk
        rw [hins, List.map_append, List.mem_append]
        push_neg
        refine ⟨hdisj k (List.mem_cons_of_mem _ hk), ?_⟩
        intro hcontra
        simp only [List.map_cons, List.map_nil, List.mem_singleton] at hcontra
        subst hcontra
        exact hi_nin hk
      obtain ⟨ext, hext, hkeys⟩ := hrec.2.2.2 hflat_nd hdisj2
      refine ⟨[(i, store.length)] ++ ext, ?_, ?_⟩
      · rw [hext, hins, List.append_assoc]
      · intro k hk
        rw [List.map_append, List.mem_append] at hk
        rcases hk with hk | hk
        · simp only [List.map_cons, List.map_nil, List.mem_singleton] at hk
          subst hk
          rw [apiIds_mk]
          exact List.mem_cons_self _ _
        · rw [apiIds_mk]
          exact List.mem_cons_of_mem _ (hkeys k hk)

theorem buildNodes_spec (l : List ApiPage) (store : PageStore)
    (pages : List (String × Nat)) (pr : Nat)
    (hinv : StoreInv store) (hpr : pr < store.length)
    (hval : ∀ v ∈ pages.map Prod.snd, v < store.length) :
    StoreInv (buildNodes l store pages pr).1
    ∧ store.length ≤ (buildNodes l store pages pr).1.length
    ∧ (∀ v ∈ (buildNodes l store pages pr).2.map Prod.snd,
        v < (buildNodes l store pages pr).1.length)
    ∧ (((l.map apiIds).flatten).Nodup →
        (∀ k ∈ (l.map apiIds).flatten, k ∉ pages.map Prod.fst) →
        ∃ ext, (buildNodes l store pages pr).2 = pages ++ ext
          ∧ ∀ k ∈ ext.map Prod.fst, k ∈ (l.map apiIds).flatten) := by
  match l with
  | [] =>
    refine ⟨hinv, le_refl _, hval, ?_⟩
    intro _ _
    exact ⟨[], by simp [buildNodes], by simp⟩
  | a :: rest =>
    have hbns : buildNodes (a :: rest) store pages pr
        = buildNodes rest (buildNode a store pages pr).1
            (buildNode a store pages pr).2 pr := rfl
    have h1 := buildNode_spec a store pages pr hinv hpr hval
    have h2 := buildNodes_spec rest (buildNode a store pages pr).1
      (buildNode a store pages pr).2 pr h1.1 (by omega) h1.2.2.1
    rw [hbns]
    refine ⟨h2.1, by omega, h2.2.2.1, ?_⟩
    intro hnd hdisj
    have hflat : ((a :: rest).map apiIds).flatten
        = apiIds a ++ (rest.map apiIds).flatten := by simp
    rw [hflat] at hnd hdisj
    rw [List.nodup_append] at hnd
    obtain ⟨hnd_a, hnd_rest, hdisj_ar⟩ := hnd
    obtain ⟨ext1, hext1, hkeys1⟩ := h1.2.2.2 hnd_a
      (fun k hk => hdisj k (List.mem_append.mpr (Or.inl hk)))
    have hdisj2 : ∀ k ∈ (rest.map apiIds).flatten,
        k ∉ ((buildNode a store pages pr).2.map Prod.fst) := by
      intro k hk
      rw [hext1, List.map_append, List.mem_append]
      push_neg
      refine ⟨hdisj k (List.mem_append.mpr (Or.inr hk)), ?_⟩
      intro hcontra
      exact absurd hk (hdisj_ar (hkeys1 k hcontra))
    obtain ⟨ext2, hext2, hkeys2⟩ := h2.2.2.2 hnd_rest hdisj2
    refine ⟨ext1 ++ ext2, ?_, ?_⟩
    · rw [hext2, hext1, List.append_assoc]
    · intro k hk
      rw [List.map_append, List.mem_append] at hk
      rw [hflat, List.mem_append]
      rcases hk with hk | hk
      · exact Or.inl (hkeys1 k hk)
      · exact Or.inr (hkeys2 k hk)

end

theorem selfAndParents_self_mem (store : PageStore) (f v : Nat) :
    v ∈ selfAndParents store f v := by
  cases f with
  | zero => simp [selfAndParents]
  | succ k =>
    rw [selfAndParents]
    cases (getPage store v).parent with
    | none => simp
    | some p => simp

theorem selfAndParents_parent_none (store : PageStore) (v : Nat)
    (h : (getPage store v).parent = none) (f : Nat) :
    selfAndParents store f v = [v] := by
  cases f with
  | zero => rfl
  | succ k =>
    rw [selfAndParents, h]

theorem selfAndParents_fuel_eq (store : PageStore) (hinv : StoreInv store) :
    ∀ v, v < store.length → ∀ f1 f2, v ≤ f1 → v ≤ f2 →
      selfAndParents store f1 v = selfAndParents store f2 v := by
  intro v
  induction v using Nat.strong_induction_on with
  | _ v ih =>
    intro hv f1 f2 hf1 hf2
    cases hpar : (getPage store v).parent with
    | none =>
      rw [selfAndParents_parent_none store v hpar,
        selfAndParents_parent_none store v hpar]
    | some p =>
      have hv0 : 0 < v := by
        by_contra h0
        have : v = 0 := by omega
        subst this
        rw [hinv.rootParent] at hpar
        cases hpar
      obtain ⟨p', hp', hplt⟩ := hinv.parentLt v hv0 hv
      rw [hpar] at hp'
      cases hp'
      obtain ⟨k1, rfl⟩ : ∃ k, f1 = k + 1 := ⟨f1 - 1, by omega⟩
      obtain ⟨k2, rfl⟩ : ∃ k, f2 = k + 1 := ⟨f2 - 1, by omega⟩
      rw [selfAndParents, hpar, selfAndParents, hpar]
      show v :: selfAndParents store k1 p = v :: selfAndParents store k2 p
      rw [ih p hplt (by omega) k1 k2 (by omega) (by omega)]

theorem root_mem_selfAndParents (store : PageStore) (hinv : StoreInv store) :
    ∀ v, v < store.length → ∀ f, v ≤ f → 0 ∈ selfAndParents store f v := by
  intro v
  induction v using Nat.strong_induction_on with
  | _ v ih =>
    intro hv f hf
    cases hpar : (getPage store v).parent with
    | none =>
      have hv0 : v = 0 := by
        by_contra h0
        obtain ⟨p, hp, -⟩ := hinv.parentLt v (by omega) hv
        rw [hpar] at hp
        cases hp
      subst hv0
      rw [selfAndParents_parent_none store 0 hpar]
      simp
    | some p =>
      have hv0 : 0 < v := by
        by_contra h0
        have : v = 0 := by omega
        subst this
        rw [hinv.rootParent] at hpar
        cases hpar
      obtain ⟨p', hp', hplt⟩ := hinv.parentLt v hv0 hv
      rw [hpar] at hp'
      cases hp'
      obtain ⟨k, rfl⟩ : ∃ k, f = k + 1 := ⟨f - 1, by omega⟩
      rw [selfAndParents, hpar]
      show 0 ∈ v :: selfAndParents store k p
      exact List.mem_cons_of_mem _ (ih p hplt (by omega) k (by omega))

theorem subroot_mem_selfAndParents (store : PageStore) (hinv : StoreInv store)
    (r : Nat) (hr : r < store.length) :
    ∀ v, ReachableFrom store r v →
      v < store.length ∧ r ∈ selfAndParents store store.length v := by
  intro v hreach
  induction hreach with
  | refl => exact ⟨hr, selfAndParents_self_mem store store.length r⟩
  | step hs ht ih =>
    rename_i s t
    obtain ⟨hslen, hrmem⟩ := ih
    obtain ⟨htlen, hpar⟩ := hinv.childCoh s hslen t ht
    refine ⟨htlen, ?_⟩
    obtain ⟨k, hk⟩ : ∃ k, store.length = k + 1 := ⟨store.length - 1, by omega⟩
    rw [hk, selfAndParents, hpar]
    show r ∈ t :: selfAndParents store k s
    refine List.mem_cons_of_mem _ ?_
    rw [selfAndParents_fuel_eq store hinv s hslen k store.length (by omega) (by omega)]
    exact hrmem

theorem getPageTree_spec (api : ApiPage) :
    StoreInv (getPageTree api).1
    ∧ (getPageTree api).2.root = 0
    ∧ (∀ v ∈ (getPageTree api).2.pages.map Prod.snd, v < (getPageTree api).1.length)
    ∧ ((apiIds api).Nodup →
        ∃ ext, (getPageTree api).2.pages
          = ((fun a => match a with | ApiPage.mk i _ _ _ => i) api, 0) :: ext) := by
  match api with
  | ApiPage.mk i t pa subs =>
    have hinv0 : StoreInv [(⟨i, t, pa, none, []⟩ : LibraryPage)] := by
      refine ⟨by simp, by simp [getPage, List.getD], ?_, ?_⟩
      · intro r hr0 hrlen
        simp at hrlen
        omega
      · intro s hs tc htc
        simp at hs
        subst hs
        simp [getPage, List.getD] at htc
    have hgpt : getPageTree (ApiPage.mk i t pa subs)
        = ((buildNodes subs [⟨i, t, pa, none, []⟩] [(i, 0)] 0).1,
           ⟨0, (buildNodes subs [⟨i, t, pa, none, []⟩] [(i, 0)] 0).2⟩) := rfl
    have hspec := buildNodes_spec subs [⟨i, t, pa, none, []⟩] [(i, 0)] 0 hinv0
      (by simp) (by simp)
    rw [hgpt]
    refine ⟨hspec.1, rfl, hspec.2.2.1, ?_⟩
    intro hnd
    rw [apiIds_mk] at hnd
    have hflat_nd : ((subs.map apiIds).flatten).Nodup := (List.nodup_cons.mp hnd).2
    have hi_nin : i ∉ (subs.map apiIds).flatten := (List.nodup_cons.mp hnd).1
    obtain ⟨ext, hext, -⟩ := hspec.2.2.2 hflat_nd
      (by
        intro k hk
        simp only [List.map_cons, List.map_nil, List.mem_singleton]
        intro hcontra
        subst hcontra
        exact hi_nin hk)
    exact ⟨ext, by rw [hext]; rfl⟩

/-- C10 (amended): `ContentFilter.filter` preserves the pages-dict insertion
order unconditionally (its result is a sublist of `pages.values()`); for a
tree built by `get_page_tree` from an API response with pairwise-distinct
page ids, a non-empty selection starts with the tree's root, and for any
`sub_tree` of such a tree a non-empty selection starts with the sub-tree's
root — the invariant `Processor.run` relies on when it writes
`selected_pages[0].path` as `rootPagePath`. -/
theorem c10_filter_root_first (api : ApiPage) (f : ContentFilterM) :
    (∀ (store : PageStore) (tree : LibraryTree),
        List.Sublist (filterCore f store tree) (tree.pages.map Prod.snd))
    ∧ ((apiIds api).Nodup →
        filterCore f (getPageTree api).1 (getPageTree api).2 ≠ [] →
        (filterCore f (getPageTree api).1 (getPageTree api).2).head?
          = some (getPageTree api).2.root)
    ∧ (∀ rid t', subTree (getPageTree api).1 (getPageTree api).2 rid = some t' →
        filterCore f (getPageTree api).1 t' ≠ [] →
        (filterCore f (getPageTree api).1 t').head? = some t'.root) := by
  have hspec := getPageTree_spec api
  refine ⟨fun store tree => List.filter_sublist _, ?_, ?_⟩
  · intro hnd hne
    obtain ⟨ext, hext⟩ := hspec.2.2.2 hnd
    have hvals : (getPageTree api).2.pages.map Prod.snd
        = 0 :: ext.map Prod.snd := by
      rw [hext]
      rfl
    obtain ⟨r, hr⟩ := List.exists_mem_of_ne_nil _ hne
    obtain ⟨-, q, hq, hsel, -⟩ :=
      (mem_filterCore_iff f (getPageTree api).1 (getPageTree api).2 r).mp hr
    have hqlen : q < (getPageTree api).1.length := hspec.2.2.1 q hq
    have h0mem : 0 ∈ selfAndParents (getPageTree api).1 (getPageTree api).1.length q :=
      root_mem_selfAndParents (getPageTree api).1 hspec.1 q hqlen
        (getPageTree api).1.length (by omega)
    have hid0 : (getPage (getPageTree api).1 0).id
        ∈ selectedIds f (getPageTree api).1 (getPageTree api).2 := by
      unfold selectedIds
      rw [List.mem_flatten]
      exact ⟨_, List.mem_map.mpr ⟨q, List.mem_filter.mpr ⟨hq, hsel⟩, rfl⟩,
        List.mem_map.mpr ⟨0, h0mem, rfl⟩⟩
    have hfc : filterCore f (getPageTree api).1 (getPageTree api).2
        = ((0 : Nat) :: ext.map Prod.snd).filter
            (fun r => decide ((getPage (getPageTree api).1 r).id
              ∈ selectedIds f (getPageTree api).1 (getPageTree api).2)) := by
      unfold filterCore
      rw [hvals]
    rw [hfc, List.filter_cons, if_pos (by exact decide_eq_true hid0), hspec.2.1]
    rfl
  · intro rid t' hsub hne
    cases hfind : findRef (getPageTree api).2.pages rid with
    | none =>
      simp only [subTree, hfind] at hsub
      cases hsub
    | some r0 =>
      simp only [subTree, hfind, Option.some.injEq] at hsub
      subst hsub
      have hr0len : r0 < (getPageTree api).1.length := by
        have hmem := findRef_some_mem _ _ _ hfind
        exact hspec.2.2.1 r0 (List.mem_map_of_mem Prod.snd hmem)
      obtain ⟨ext2, hext2⟩ := subTreeGo_append (getPageTree api).1
        [((getPage (getPageTree api).1 r0).id, r0)]
        (getPage (getPageTree api).1 r0).children
      have hsound : ∀ e ∈ subTreeGo (getPageTree api).1
          [((getPage (getPageTree api).1 r0).id, r0)]
          (getPage (getPageTree api).1 r0).children,
          ReachableFrom (getPageTree api).1 r0 e.2 :=
        subTreeGo_sound (getPageTree api).1 (ReachableFrom (getPageTree api).1 r0)
          (fun s t hs ht => ReachableFrom.step hs ht) _ _
          (by
            intro e he
            simp only [List.mem_singleton] at he
            subst he
            exact ReachableFrom.refl)
          (fun c hc => ReachableFrom.step ReachableFrom.refl hc)
    -- the sub-tree as a LibraryTree value
      obtain ⟨r, hr⟩ := List.exists_mem_of_ne_nil _ hne
      obtain ⟨-, q, hq, hsel, -⟩ := (mem_filterCore_iff f (getPageTree api).1
        ⟨r0, subTreeGo (getPageTree api).1
          [((getPage (getPageTree api).1 r0).id, r0)]
          (getPage (getPageTree api).1 r0).children⟩ r).mp hr
    -- q is a value of the sub-tree pages, hence reachable from r0
      have hqreach : ReachableFrom (getPageTree api).1 r0 q := by
        obtain ⟨e, he, rfl⟩ := List.mem_map.mp hq
        exact hsound e he
      obtain ⟨hqlen, hrmem⟩ :=
        subroot_mem_selfAndParents (getPageTree api).1 hspec.1 r0 hr0len q hqreach
      have hidr0 : (getPage (getPageTree api).1 r0).id
          ∈ selectedIds f (getPageTree api).1
            ⟨r0, subTreeGo (getPageTree api).1
              [((getPage (getPageTree api).1 r0).id, r0)]
              (getPage (getPageTree api).1 r0).children⟩ := by
        unfold selectedIds
        rw [List.mem_flatten]
        exact ⟨_, List.mem_map.mpr ⟨q, List.mem_filter.mpr ⟨hq, hsel⟩, rfl⟩,
          List.mem_map.mpr ⟨r0, hrmem, rfl⟩⟩
      have hvals2 : (subTreeGo (getPageTree api).1
          [((getPage (getPageTree api).1 r0).id, r0)]
          (getPage (getPageTree api).1 r0).children).map Prod.snd
          = r0 :: ext2.map Prod.snd := by
        rw [hext2]
        rfl
      have hfc2 : filterCore f (getPageTree api).1
          ⟨r0, subTreeGo (getPageTree api).1
            [((getPage (getPageTree api).1 r0).id, r0)]
            (getPage (getPageTree api).1 r0).children⟩
          = (r0 :: ext2.map Prod.snd).filter
              (fun r => decide ((getPage (getPageTree api).1 r).id
                ∈ selectedIds f (getPageTree api).1
                  ⟨r0, subTreeGo (getPageTree api).1
                    [((getPage (getPageTree api).1 r0).id, r0)]
                    (getPage (getPageTree api).1 r0).children⟩)) := by
        unfold filterCore
        rw [hvals2]
      rw [hfc2, List.filter_cons, if_pos (by exact decide_eq_true hidr0)]
      rfl

/-- API response with a repeated page id: the child carries the same id
`"x"` as the root. -/
def exC10Api : ApiPage :=
  ApiPage.mk "x" "Root" "root-path" [ApiPage.mk "x" "Child" "child-path" []]

/-- No filter configured: every page is selected. -/
def exC10NoFilter : ContentFilterM := ⟨none, none, none, none⟩

/-- C10 (counterexample to the claim as stated): for the tree built by
`get_page_tree` from API data whose child repeats the root's id, the dict
assignment `pages[page.id] = page` overwrites the root's entry in place, so
the first element of the (non-empty, unfiltered) selection is the child
object (path `child-path`), not the tree's root (path `root-path`) —
`selected_pages[0].path` would be the wrong `rootPagePath`. -/
theorem c10_root_first_counterexample :
    (filterCore exC10NoFilter (getPageTree exC10Api).1 (getPageTree exC10Api).2).head?
        = some 1
    ∧ (getPageTree exC10Api).2.root = 0
    ∧ (getPage (getPageTree exC10Api).1 1).path
        ≠ (getPage (getPageTree exC10Api).1 0).path := by
  refine ⟨by decide, by decide, by decide⟩

/-- API response with distinct ids: root `r`, one child `a` titled `A`. -/
def exC10GoodApi : ApiPage :=
  ApiPage.mk "r" "Root" "p0" [ApiPage.mk "a" "A" "p1" []]

/-- Title-include filter selecting `A`. -/
def exC10TitleFilter : ContentFilterM := ⟨some (fun t => t = "A"), none, none, none⟩

/-- Witness for `c10_filter_root_first`: on the distinct-id tree with the
title filter `A` the selection is non-empty and starts with the tree's
root. -/
theorem c10_filter_root_first_witness :
    (filterCore exC10TitleFilter (getPageTree exC10GoodApi).1
        (getPageTree exC10GoodApi).2).head?
      = some (getPageTree exC10GoodApi).2.root := by
  have h := c10_filter_root_first exC10GoodApi exC10TitleFilter
  have hids : apiIds exC10GoodApi = ["r", "a"] := by
    simp [exC10GoodApi, apiIds_mk]
  exact h.2.1 (by rw [hids]; decide) (by decide)
